import Mathlib

/-!
Verification development for `lustre-hsm-action-stream`.

This file gives a shallow embedding, in Lean 4, of the parts of the
repository that the checked claims are about:

* `parser.py` — `parse_action_line` and its two regex scans;
* `shipper.py` — the scan cache (`load_cache` / `save_cache`), the
  file-read helper `_read_file_safely`, one shipper poll cycle
  (`do_shipper_poll_cycle`), the maintenance replay
  (`_replay_stream_and_get_state`) and stream trimming (`_trim_stream` /
  `run_maintenance_cycle`);
* `stats.py` — `StatsGenerator._process_one_event` and the skip-on-error
  behaviour of `StatsGenerator.run`.

Python strings are modelled as Lean `String` / `List Char` (character
classes such as `\w` and `str.isdigit` are modelled over ASCII, which
covers every string the programs themselves construct).  Python `dict`s
are modelled as association lists with Python's semantics: assignment to
an existing key keeps its position, new keys append, and iteration is in
insertion order.  Fallible Python code (raising statements) is modelled
with `Except`/`Option`.  The MD5 digest used by the shipper is only ever
compared for equality, so the embedding is parameterised by an arbitrary
digest function `hashFn : String → String`.
-/

set_option maxHeartbeats 1000000

/-! ### Python string helpers -/

/-- The characters stripped by Python's `str.strip()` with no argument and
accepted by `int()` as surrounding whitespace (ASCII fragment). -/
def isPySpace (c : Char) : Bool :=
  c = ' ' || c = '\t' || c = '\n' || c = '\r' || c = Char.ofNat 11 || c = Char.ofNat 12

/-- Python `str.strip()` on a character list. -/
def pyStripWs (s : List Char) : List Char :=
  ((s.dropWhile isPySpace).reverse.dropWhile isPySpace).reverse

/-- Python `str.strip()` on a `String`. -/
def pyStripWsStr (s : String) : String := ⟨pyStripWs s.data⟩

/-- Membership test for the character set `"[]"`, as used by
`val.strip("[]")` in `parser.py`. -/
def isSquareBracket (c : Char) : Bool := c = '[' || c = ']'

/-- Python `val.strip("[]")`: remove leading and trailing `[`/`]` characters. -/
def stripSquare (s : List Char) : List Char :=
  ((s.dropWhile isSquareBracket).reverse.dropWhile isSquareBracket).reverse

/-- Helper for Python `str.split`: prepend a character to the first chunk. -/
def consHead (c : Char) : List (List Char) → List (List Char)
  | [] => [[c]]
  | h :: t => (c :: h) :: t

/-- Python `s.split(sep)` for a one-character separator (no maxsplit):
splits at every occurrence, `"".split(sep) = [""]`. -/
def splitChar (sep : Char) : List Char → List (List Char)
  | [] => [[]]
  | c :: cs => if c = sep then [] :: splitChar sep cs else consHead c (splitChar sep cs)

/-- Python `s.split(sep, maxsplit)` for a one-character separator. -/
def splitCharMax (sep : Char) : Nat → List Char → List (List Char)
  | _, [] => [[]]
  | 0, cs => [cs]
  | n + 1, c :: cs =>
    if c = sep then [] :: splitCharMax sep n cs
    else consHead c (splitCharMax sep (n + 1) cs)

/-! ### Python `int()` and `str(int)` -/

/-- Numeric value of a decimal digit character. -/
def digitVal (c : Char) : Nat := c.toNat - '0'.toNat

/-- Digit string body of a Python integer literal after the optional sign:
decimal digits with single underscores allowed only between digits.
`acc` is the value of the digits already consumed. -/
def pyDigitsAux (acc : Nat) : List Char → Option Nat
  | [] => some acc
  | c :: cs =>
    if c.isDigit then pyDigitsAux (10 * acc + digitVal c) cs
    else if c = '_' then
      match cs with
      | [] => none
      | d :: cs' => if d.isDigit then pyDigitsAux (10 * acc + digitVal d) cs' else none
    else none

/-- Value of a nonempty digit-and-underscore body that must start with a digit. -/
def pyDigits : List Char → Option Nat
  | [] => none
  | c :: cs => if c.isDigit then pyDigitsAux (digitVal c) cs else none

/-- Model of Python `int(s)`: strip surrounding whitespace, allow one
optional sign, then a digit body.  Returns `none` where Python raises
`ValueError`. -/
def pyInt? (s : List Char) : Option Int :=
  match pyStripWs s with
  | [] => none
  | c :: rest =>
    if c = '+' then (pyDigits rest).map (fun n => Int.ofNat n)
    else if c = '-' then (pyDigits rest).map (fun n => -(Int.ofNat n))
    else (pyDigits (c :: rest)).map (fun n => Int.ofNat n)

/-- Decimal digit character for a value `m < 10`. -/
def dChar (m : Nat) : Char :=
  match m with
  | 0 => '0' | 1 => '1' | 2 => '2' | 3 => '3' | 4 => '4'
  | 5 => '5' | 6 => '6' | 7 => '7' | 8 => '8' | _ => '9'

/-- Digits of a positive natural, most significant first, prepended to `acc`. -/
def natDigitsAux (n : Nat) (acc : List Char) : List Char :=
  if h : n = 0 then acc
  else natDigitsAux (n / 10) (dChar (n % 10) :: acc)
termination_by n
decreasing_by exact Nat.div_lt_self (Nat.pos_of_ne_zero h) (by norm_num)

/-- Decimal digits of a natural number, as Python `str` renders it. -/
def natDigits (n : Nat) : List Char := if n = 0 then ['0'] else natDigitsAux n []

/-- Model of Python `str(i)` for an integer, as a character list. -/
def pyIntChars (i : Int) : List Char :=
  if i < 0 then '-' :: natDigits i.natAbs else natDigits i.natAbs

/-- Model of Python `str(i)` for an integer. -/
def pyIntStr (i : Int) : String := ⟨pyIntChars i⟩

/-! ### Python `dict` as an association list -/

/-- Python `d[k] = v`: overwrite in place if the key exists, else append. -/
def dinsert [DecidableEq κ] (k : κ) (v : α) : List (κ × α) → List (κ × α)
  | [] => [(k, v)]
  | p :: rest => if p.1 = k then (k, v) :: rest else p :: dinsert k v rest

/-- Python `d.get(k)`. -/
def dget? [DecidableEq κ] (k : κ) : List (κ × α) → Option α
  | [] => none
  | p :: rest => if p.1 = k then some p.2 else dget? k rest

/-- Python `d.pop(k, None)` / `del d[k]`. -/
def dremove [DecidableEq κ] (k : κ) : List (κ × α) → List (κ × α)
  | [] => []
  | p :: rest => if p.1 = k then dremove k rest else p :: dremove k rest

/-- The key list of a dictionary, in insertion order. -/
def dkeys (d : List (κ × α)) : List κ := d.map (·.1)

/-! ### Basic lemmas about the helpers -/

theorem dget?_dinsert_self [DecidableEq κ] (k : κ) (v : α) (d : List (κ × α)) :
    dget? k (dinsert k v d) = some v := by
  induction d with
  | nil => simp [dinsert, dget?]
  | cons p rest ih =>
    by_cases h : p.1 = k
    · simp [dinsert, dget?, h]
    · simp [dinsert, dget?, h, ih]

theorem dget?_dinsert_ne [DecidableEq κ] (k k' : κ) (v : α) (d : List (κ × α))
    (h : k' ≠ k) : dget? k' (dinsert k v d) = dget? k' d := by
  induction d with
  | nil => simp [dinsert, dget?, Ne.symm h]
  | cons p rest ih =>
    by_cases hp : p.1 = k
    · subst hp
      simp [dinsert, dget?, h, Ne.symm h]
    · simp only [dinsert, if_neg hp]
      by_cases hp' : p.1 = k'
      · simp [dget?, hp']
      · simp [dget?, hp', ih]

theorem dget?_dremove_self [DecidableEq κ] (k : κ) (d : List (κ × α)) :
    dget? k (dremove k d) = none := by
  induction d with
  | nil => simp [dremove, dget?]
  | cons p rest ih =>
    by_cases h : p.1 = k
    · simp [dremove, h, ih]
    · simp [dremove, dget?, h, ih]

theorem dget?_dremove_ne [DecidableEq κ] (k k' : κ) (d : List (κ × α))
    (h : k' ≠ k) : dget? k' (dremove k d) = dget? k' d := by
  induction d with
  | nil => simp [dremove]
  | cons p rest ih =>
    by_cases hp : p.1 = k
    · subst hp
      simp [dremove, dget?, ih, Ne.symm h]
    · simp only [dremove, if_neg hp]
      by_cases hp' : p.1 = k'
      · simp [dget?, hp']
      · simp [dget?, hp', ih]

theorem dinsert_fresh [DecidableEq κ] (k : κ) (v : α) (d : List (κ × α))
    (h : k ∉ dkeys d) : dinsert k v d = d ++ [(k, v)] := by
  induction d with
  | nil => simp [dinsert]
  | cons p rest ih =>
    simp only [dkeys, List.map_cons, List.mem_cons] at h
    push_neg at h
    simp [dinsert, Ne.symm h.1, ih (by simpa [dkeys] using h.2)]

theorem dkeys_dinsert_subset [DecidableEq κ] (k : κ) (v : α) (d : List (κ × α)) :
    ∀ k' ∈ dkeys (dinsert k v d), k' = k ∨ k' ∈ dkeys d := by
  induction d with
  | nil => simp [dinsert, dkeys]
  | cons p rest ih =>
    intro k' hk'
    by_cases hp : p.1 = k
    · simp [dinsert, hp, dkeys] at hk'
      rcases hk' with h | h
      · exact Or.inl h
      · exact Or.inr (by simp [dkeys, h])
    · simp only [dinsert, if_neg hp, dkeys, List.map_cons, List.mem_cons] at hk'
      rcases hk' with h | h
      · exact Or.inr (by simp [dkeys, h])
      · rcases ih k' h with h' | h'
        · exact Or.inl h'
        · exact Or.inr (by simp [dkeys] at h' ⊢; exact Or.inr h')

theorem takeWhile_append_of_false (p : Char → Bool) (xs ys : List Char) (y : Char)
    (hx : ∀ c ∈ xs, p c = true) (hy : p y = false) :
    (xs ++ y :: ys).takeWhile p = xs := by
  induction xs with
  | nil => simp [List.takeWhile, hy]
  | cons c cs ih =>
    have hc : p c = true := hx c (by simp)
    simp [List.takeWhile, hc, ih (fun c hc => hx c (by simp [hc]))]

theorem dropWhile_append_of_false (p : Char → Bool) (xs ys : List Char) (y : Char)
    (hx : ∀ c ∈ xs, p c = true) (hy : p y = false) :
    (xs ++ y :: ys).dropWhile p = y :: ys := by
  induction xs with
  | nil => simp [List.dropWhile, hy]
  | cons c cs ih =>
    have hc : p c = true := hx c (by simp)
    simp [List.dropWhile, hc, ih (fun c hc => hx c (by simp [hc]))]

theorem dropWhile_of_all_false (p : Char → Bool) (xs : List Char)
    (hx : ∀ c ∈ xs, p c = false) : xs.dropWhile p = xs := by
  cases xs with
  | nil => rfl
  | cons c cs => simp [List.dropWhile, hx c (by simp)]

theorem pyStripWs_of_no_space (s : List Char)
    (h : ∀ c ∈ s, isPySpace c = false) : pyStripWs s = s := by
  unfold pyStripWs
  rw [dropWhile_of_all_false _ _ h]
  rw [dropWhile_of_all_false _ _ (fun c hc => h c (List.mem_reverse.mp hc))]
  exact List.reverse_reverse s

theorem splitChar_of_not_mem (sep : Char) (xs : List Char) (h : sep ∉ xs) :
    splitChar sep xs = [xs] := by
  induction xs with
  | nil => rfl
  | cons c cs ih =>
    simp only [List.mem_cons, not_or] at h
    simp [splitChar, Ne.symm h.1, ih h.2, consHead]

theorem splitChar_append (sep : Char) (xs ys : List Char) (h : sep ∉ xs) :
    splitChar sep (xs ++ sep :: ys) = xs :: splitChar sep ys := by
  induction xs with
  | nil => simp [splitChar]
  | cons c cs ih =>
    simp only [List.mem_cons, not_or] at h
    have hcs : ¬ c = sep := fun hc => h.1 hc.symm
    simp only [List.cons_append, splitChar, List.append_eq, if_neg hcs]
    rw [ih h.2]
    rfl

theorem splitCharMax_of_not_mem (sep : Char) (n : Nat) (xs : List Char) (h : sep ∉ xs) :
    splitCharMax sep n xs = [xs] := by
  induction xs generalizing n with
  | nil => cases n <;> rfl
  | cons c cs ih =>
    cases n with
    | zero => rfl
    | succ m =>
      simp only [List.mem_cons, not_or] at h
      simp [splitCharMax, Ne.symm h.1, ih (m + 1) h.2, consHead]

theorem splitCharMax_append (sep : Char) (n : Nat) (xs ys : List Char) (h : sep ∉ xs) :
    splitCharMax sep (n + 1) (xs ++ sep :: ys) = xs :: splitCharMax sep n ys := by
  induction xs with
  | nil => simp [splitCharMax]
  | cons c cs ih =>
    simp only [List.mem_cons, not_or] at h
    have hcs : ¬ c = sep := fun hc => h.1 hc.symm
    simp only [List.cons_append, splitCharMax, List.append_eq, if_neg hcs]
    rw [ih h.2]
    rfl

theorem dChar_isDigit (m : Nat) : (dChar m).isDigit = true := by
  unfold dChar
  split <;> decide

theorem digitVal_dChar (m : Nat) (h : m < 10) : digitVal (dChar m) = m := by
  interval_cases m <;> decide

theorem natDigitsAux_step (n : Nat) (acc : List Char) (h : n ≠ 0) :
    natDigitsAux n acc = natDigitsAux (n / 10) (dChar (n % 10) :: acc) := by
  rw [natDigitsAux]
  simp [h]

theorem natDigitsAux_append (n : Nat) :
    ∀ acc, natDigitsAux n acc = natDigitsAux n [] ++ acc := by
  induction n using Nat.strong_induction_on with
  | _ n ih =>
    intro acc
    by_cases h : n = 0
    · subst h
      simp [natDigitsAux]
    · have hlt : n / 10 < n := Nat.div_lt_self (Nat.pos_of_ne_zero h) (by norm_num)
      rw [natDigitsAux_step n acc h, natDigitsAux_step n [] h]
      rw [ih (n / 10) hlt (dChar (n % 10) :: acc), ih (n / 10) hlt [dChar (n % 10)]]
      simp

theorem natDigitsAux_ne_nil (n : Nat) (h : n ≠ 0) : natDigitsAux n [] ≠ [] := by
  rw [natDigitsAux_step n [] h, natDigitsAux_append]
  simp

theorem natDigitsAux_all_digits (n : Nat) :
    ∀ c ∈ natDigitsAux n [], c.isDigit = true := by
  induction n using Nat.strong_induction_on with
  | _ n ih =>
    intro c hc
    by_cases h : n = 0
    · subst h
      simp [natDigitsAux] at hc
    · have hlt : n / 10 < n := Nat.div_lt_self (Nat.pos_of_ne_zero h) (by norm_num)
      rw [natDigitsAux_step n [] h, natDigitsAux_append] at hc
      rcases List.mem_append.mp hc with h' | h'
      · exact ih (n / 10) hlt c h'
      · simp at h'
        subst h'
        exact dChar_isDigit _

theorem natDigits_all_digits (n : Nat) : ∀ c ∈ natDigits n, c.isDigit = true := by
  unfold natDigits
  by_cases h : n = 0
  · simp [h]
  · simp only [h, if_false]
    exact natDigitsAux_all_digits n

theorem natDigitsAux_foldl (n : Nat) :
    List.foldl (fun a c => 10 * a + digitVal c) 0 (natDigitsAux n []) = n := by
  induction n using Nat.strong_induction_on with
  | _ n ih =>
    by_cases h : n = 0
    · subst h
      simp [natDigitsAux]
    · have hlt : n / 10 < n := Nat.div_lt_self (Nat.pos_of_ne_zero h) (by norm_num)
      rw [natDigitsAux_step n [] h, natDigitsAux_append, List.foldl_append, ih (n / 10) hlt]
      simp only [List.foldl_cons, List.foldl_nil]
      rw [digitVal_dChar (n % 10) (Nat.mod_lt n (by norm_num))]
      omega

theorem pyDigitsAux_of_digits (ds : List Char) :
    ∀ acc, (∀ c ∈ ds, c.isDigit = true) →
      pyDigitsAux acc ds = some (ds.foldl (fun a c => 10 * a + digitVal c) acc) := by
  induction ds with
  | nil => intro acc _; rfl
  | cons c cs ih =>
    intro acc h
    have hc : c.isDigit = true := h c (by simp)
    have hstep : pyDigitsAux acc (c :: cs) = pyDigitsAux (10 * acc + digitVal c) cs := by
      rw [pyDigitsAux.eq_def]
      simp [hc]
    rw [hstep, List.foldl_cons]
    exact ih _ (fun d hd => h d (by simp [hd]))

theorem pyDigits_natDigits (n : Nat) : pyDigits (natDigits n) = some n := by
  by_cases h : n = 0
  · subst h
    decide
  · unfold natDigits
    simp only [h, if_false]
    have hne : natDigitsAux n [] ≠ [] := natDigitsAux_ne_nil n h
    have hdig := natDigitsAux_all_digits n
    obtain ⟨c, cs, hcs⟩ := List.exists_cons_of_ne_nil hne
    rw [hcs]
    have hc : c.isDigit = true := hdig c (by rw [hcs]; simp)
    simp only [pyDigits, hc, if_true]
    rw [pyDigitsAux_of_digits cs (digitVal c) (fun d hd => hdig d (by rw [hcs]; simp [hd]))]
    have heq : List.foldl (fun a c => 10 * a + digitVal c) (digitVal c) cs
        = List.foldl (fun a c => 10 * a + digitVal c) 0 (c :: cs) := by
      simp
    rw [heq, ← hcs, natDigitsAux_foldl]

theorem isDigit_not_space (c : Char) (h : c.isDigit = true) : isPySpace c = false := by
  by_contra hc
  simp only [Bool.not_eq_false] at hc
  have hor : c = ' ' ∨ c = '\t' ∨ c = '\n' ∨ c = '\r' ∨ c = Char.ofNat 11 ∨ c = Char.ofNat 12 := by
    simpa [isPySpace, or_assoc] using hc
  rcases hor with h' | h' | h' | h' | h' | h' <;> subst h' <;> exact absurd h (by decide)

theorem isDigit_ne (c : Char) (h : c.isDigit = true) :
    c ≠ ':' ∧ c ≠ '/' ∧ c ≠ '-' ∧ c ≠ '+' ∧ c ≠ '[' ∧ c ≠ ']' := by
  refine ⟨?_, ?_, ?_, ?_, ?_, ?_⟩ <;> intro hc <;> subst hc <;> revert h <;> decide

theorem pyStripWs_pyIntChars (i : Int) : pyStripWs (pyIntChars i) = pyIntChars i := by
  apply pyStripWs_of_no_space
  intro c hc
  unfold pyIntChars at hc
  by_cases h : i < 0
  · simp only [h, if_true, List.mem_cons] at hc
    rcases hc with h' | h'
    · subst h'; decide
    · exact isDigit_not_space c (natDigits_all_digits _ c h')
  · simp only [h, if_false] at hc
    exact isDigit_not_space c (natDigits_all_digits _ c hc)

theorem natDigits_head_digit (n : Nat) :
    ∃ c cs, natDigits n = c :: cs ∧ c.isDigit = true := by
  have hne : natDigits n ≠ [] := by
    unfold natDigits
    by_cases h : n = 0
    · simp [h]
    · simp only [h, if_false]
      exact natDigitsAux_ne_nil n h
  obtain ⟨c, cs, hcs⟩ := List.exists_cons_of_ne_nil hne
  exact ⟨c, cs, hcs, natDigits_all_digits n c (by rw [hcs]; simp)⟩

theorem pyInt?_pyIntChars (i : Int) : pyInt? (pyIntChars i) = some i := by
  obtain ⟨c, cs, hcs, hc⟩ := natDigits_head_digit i.natAbs
  have hcne := isDigit_ne c hc
  unfold pyInt?
  rw [pyStripWs_pyIntChars]
  by_cases h : i < 0
  · simp only [pyIntChars, h, if_true]
    have hne : ¬ ('-' : Char) = '+' := by decide
    simp only [hne, if_false, if_pos rfl]
    rw [pyDigits_natDigits]
    have habs : -(i.natAbs : Int) = i := by omega
    rw [Option.map_some']
    exact congrArg some habs
  · simp only [pyIntChars, h, if_false]
    rw [hcs]
    simp only [if_neg hcne.2.2.2.1, if_neg hcne.2.2.1, ← hcs]
    rw [pyDigits_natDigits]
    have habs : (i.natAbs : Int) = i := by omega
    rw [Option.map_some']
    exact congrArg some habs

/-! ### The action-line parser (`parser.py`)

`ACTION_FIELD_RE = (\w+)=((?:\[[^\]]*\])|(?:[^\s]+))` is embedded as a
hand-rolled scanner with `re.findall` semantics: scan left to right, at
each position try to match a greedy `\w+` key, a literal `=`, then either
a bracketed value extending to the first `]`, or a maximal nonempty run
of non-whitespace; on failure advance one character, on success resume
after the match. -/

/-- `\w` over ASCII: letters, digits and underscore. -/
def isWordChar (c : Char) : Bool := c.isAlphanum || c = '_'

/-- One match attempt of `ACTION_FIELD_RE` at the head of `cs`.  Returns
the `(key, value)` capture pair and the characters following the match. -/
def matchFieldAt (cs : List Char) : Option ((List Char × List Char) × List Char) :=
  let key := cs.takeWhile isWordChar
  if key = [] then none
  else
    match cs.dropWhile isWordChar with
    | '=' :: r2 =>
      match r2 with
      | [] => none
      | c :: rest =>
        if c = '[' ∧ ']' ∈ rest then
          let inner := rest.takeWhile (fun d => !(d == ']'))
          some ((key, '[' :: (inner ++ [']'])), (rest.dropWhile (fun d => !(d == ']'))).drop 1)
        else if isPySpace c then none
        else some ((key, (c :: rest).takeWhile (fun d => !isPySpace d)),
                   (c :: rest).dropWhile (fun d => !isPySpace d))
    | _ => none

/-- `re.findall` loop for `ACTION_FIELD_RE`; the fuel argument bounds the
number of scan steps and is always instantiated with enough fuel. -/
def scanFieldsAux : Nat → List Char → List (List Char × List Char)
  | 0, _ => []
  | _ + 1, [] => []
  | fuel + 1, c :: cs =>
    match matchFieldAt (c :: cs) with
    | some (kv, rest) => kv :: scanFieldsAux fuel rest
    | none => scanFieldsAux fuel cs

/-- `ACTION_FIELD_RE.findall(line)`. -/
def scanFields (cs : List Char) : List (List Char × List Char) :=
  scanFieldsAux (cs.length + 1) cs

/-- Value characters of the inner regex `(\w+)=([^\s\[\]]+)`. -/
def innerValChar (c : Char) : Bool := !isPySpace c && !(c == '[') && !(c == ']')

/-- One match attempt of the inner regex `(\w+)=([^\s\[\]]+)`. -/
def matchInnerAt (cs : List Char) : Option ((List Char × List Char) × List Char) :=
  let key := cs.takeWhile isWordChar
  if key = [] then none
  else
    match cs.dropWhile isWordChar with
    | '=' :: r2 =>
      let v := r2.takeWhile innerValChar
      if v = [] then none
      else some ((key, v), r2.dropWhile innerValChar)
    | _ => none

/-- `re.findall` loop for the inner regex. -/
def scanInnerAux : Nat → List Char → List (List Char × List Char)
  | 0, _ => []
  | _ + 1, [] => []
  | fuel + 1, c :: cs =>
    match matchInnerAt (c :: cs) with
    | some (kv, rest) => kv :: scanInnerAux fuel rest
    | none => scanInnerAux fuel cs

/-- `re.findall(r'(\w+)=([^\s\[\]]+)', inner)`. -/
def scanInner (cs : List Char) : List (List Char × List Char) :=
  scanInnerAux (cs.length + 1) cs

/-- The mutable `data` dictionary built by `parse_action_line`; a `none`
field models an absent dictionary key. -/
structure PDict where
  cat_idx : Option Int := none
  rec_idx : Option Int := none
  action : Option String := none
  fid : Option String := none
  status : Option String := none
deriving Repr, DecidableEq

/-- A successfully parsed action record: `parse_action_line` returns the
dictionary only when both `cat_idx` and `rec_idx` are present. -/
structure ActionData where
  cat_idx : Int
  rec_idx : Int
  action : Option String := none
  fid : Option String := none
  status : Option String := none
deriving Repr, DecidableEq

/-- The two `int()` conversions and assignments for an index pair
`a/b`.  Mirrors the Python statement order: `data["cat_idx"] = int(cat_idx)`
executes before `int(rec_idx)` is attempted, so a failure on the second
half leaves `cat_idx` assigned (the `except` clause then continues). -/
def applyIdxHalves (d : PDict) (a b : List Char) : PDict :=
  match pyInt? a with
  | none => d
  | some ca =>
    let d1 := { d with cat_idx := some ca }
    match pyInt? b with
    | none => d1
    | some rb => { d1 with rec_idx := some rb }

/-- The `key == "idx"` branch of `parse_action_line`:
`val.strip("[]").split("/")` must give exactly two halves. -/
def applyTopIdx (d : PDict) (v : List Char) : PDict :=
  match splitChar '/' (stripSquare v) with
  | [a, b] => applyIdxHalves d a b
  | _ => d

/-- One inner-bracket `key=value` pair: `idx` only when `cat_idx` is not
yet set (no `strip`), other known fields only when not already present. -/
def applyInnerField (d : PDict) (kv : List Char × List Char) : PDict :=
  if kv.1 = "idx".data then
    if d.cat_idx = none then
      match splitChar '/' kv.2 with
      | [a, b] => applyIdxHalves d a b
      | _ => d
    else d
  else if kv.1 = "action".data then
    if d.action = none then { d with action := some ⟨kv.2⟩ } else d
  else if kv.1 = "fid".data then
    if d.fid = none then { d with fid := some ⟨kv.2⟩ } else d
  else if kv.1 = "status".data then
    if d.status = none then { d with status := some ⟨kv.2⟩ } else d
  else d

/-- One top-level `key=value` pair of `parse_action_line`. -/
def applyField (d : PDict) (kv : List Char × List Char) : PDict :=
  if kv.1 = "idx".data then applyTopIdx d kv.2
  else if kv.1 = "action".data then { d with action := some ⟨stripSquare kv.2⟩ }
  else if kv.1 = "fid".data then { d with fid := some ⟨stripSquare kv.2⟩ }
  else if kv.1 = "status".data then { d with status := some ⟨stripSquare kv.2⟩ }
  else if kv.2.head? = some '[' ∧ kv.2.getLast? = some ']' then
    (scanInner (kv.2.drop 1).dropLast).foldl applyInnerField d
  else d

/-- `parser.parse_action_line`: fold all regex matches into the data
dictionary, then require both index halves. -/
def parse_action_line (line : String) : Option ActionData :=
  let d := (scanFields line.data).foldl applyField {}
  match d.cat_idx, d.rec_idx with
  | some c, some r =>
    some { cat_idx := c, rec_idx := r, action := d.action, fid := d.fid, status := d.status }
  | _, _ => none

/-! ### The persistent scan cache (`shipper.load_cache` / `shipper.save_cache`)

The on-disk format is a single JSON object whose keys are
`f"{mdt}:{cat_idx}:{rec_idx}"` and whose values are the cache records.
The JSON round trip through the file is modelled as the identity on the
string-keyed dictionary, so `save_cache` produces that dictionary and
`load_cache` consumes it. -/

/-- A scan-cache key `(mdt, cat_idx, rec_idx)`. -/
abbrev CKey := String × Int × Int

/-- `f"{k[0]}:{k[1]}:{k[2]}"`. -/
def encode_cache_key (k : CKey) : String :=
  k.1 ++ ":" ++ pyIntStr k.2.1 ++ ":" ++ pyIntStr k.2.2

/-- `save_cache`: the serialisable dictionary
`{f"{k[0]}:{k[1]}:{k[2]}": v for k, v in cache.items()}`. -/
def save_cache (cache : List (CKey × α)) : List (String × α) :=
  cache.foldl (fun acc kv => dinsert (encode_cache_key kv.1) kv.2 acc) []

/-- Decoding of one stored key:
`parts = k.split(':', 2); (parts[0], int(parts[1]), int(parts[2]))`;
`none` models the `IndexError`/`ValueError` cases. -/
def decode_cache_key (s : String) : Option CKey :=
  match splitCharMax ':' 2 s.data with
  | [p0, p1, p2] =>
    match pyInt? p1, pyInt? p2 with
    | some i, some j => some (⟨p0⟩, i, j)
    | _, _ => none
  | _ => none

/-- The `for k, v in loaded_data.items()` loop of `load_cache`; a failure
on any key aborts the whole load (the surrounding `try`). -/
def loadCacheAux : List (String × α) → List (CKey × α) → Option (List (CKey × α))
  | [], acc => some acc
  | (k, v) :: rest, acc =>
    match decode_cache_key k with
    | some kt => loadCacheAux rest (dinsert kt v acc)
    | none => none

/-- `load_cache`: rebuild the tuple-keyed dictionary from the stored JSON
object; on any exception return the empty cache and start fresh. -/
def load_cache (stored : List (String × α)) : List (CKey × α) :=
  match loadCacheAux stored [] with
  | some c => c
  | none => []

theorem colon_not_mem_pyIntChars (i : Int) : ':' ∉ pyIntChars i := by
  intro hc
  unfold pyIntChars at hc
  by_cases h : i < 0
  · simp only [h, if_true, List.mem_cons] at hc
    rcases hc with h' | h'
    · exact absurd h'.symm (by decide)
    · exact absurd rfl (isDigit_ne ':' (natDigits_all_digits _ _ h')).1
  · simp only [h, if_false] at hc
    exact absurd rfl (isDigit_ne ':' (natDigits_all_digits _ _ hc)).1

theorem splitCharMax_zero (sep : Char) (cs : List Char) :
    splitCharMax sep 0 cs = [cs] := by
  cases cs <;> rfl

theorem decode_encode_cache_key (m : String) (i j : Int) (h : ':' ∉ m.data) :
    decode_cache_key (encode_cache_key (m, i, j)) = some (m, i, j) := by
  unfold decode_cache_key encode_cache_key
  have hdata : (m ++ ":" ++ pyIntStr i ++ ":" ++ pyIntStr j).data
      = m.data ++ ':' :: (pyIntChars i ++ ':' :: pyIntChars j) := by
    simp [String.data_append, pyIntStr]
  rw [hdata, splitCharMax_append ':' 1 m.data _ h,
      splitCharMax_append ':' 0 (pyIntChars i) _ (colon_not_mem_pyIntChars i),
      splitCharMax_zero]
  simp [pyInt?_pyIntChars]

/-- The characters of `pyIntStr` never include a colon, so as long as the
MDT name is colon-free the encoded key splits back apart. -/
theorem encode_cache_key_inj (k k' : CKey)
    (h : ':' ∉ k.1.data) (h' : ':' ∉ k'.1.data)
    (he : encode_cache_key k = encode_cache_key k') : k = k' := by
  have h1 := decode_encode_cache_key k.1 k.2.1 k.2.2 h
  have h2 := decode_encode_cache_key k'.1 k'.2.1 k'.2.2 h'
  rw [show (k.1, k.2.1, k.2.2) = k from rfl] at h1
  rw [show (k'.1, k'.2.1, k'.2.2) = k' from rfl] at h2
  rw [he, h2] at h1
  exact (Option.some_inj.mp h1).symm

theorem save_cache_foldl (cache : List (CKey × α)) :
    ∀ acc : List (String × α),
      (∀ kv ∈ cache, encode_cache_key kv.1 ∉ dkeys acc) →
      (cache.map (fun kv => encode_cache_key kv.1)).Nodup →
      cache.foldl (fun acc kv => dinsert (encode_cache_key kv.1) kv.2 acc) acc
        = acc ++ cache.map (fun kv => (encode_cache_key kv.1, kv.2)) := by
  induction cache with
  | nil => intro acc _ _; simp
  | cons kv rest ih =>
    intro acc hfresh hnd
    simp only [List.map_cons, List.nodup_cons, List.mem_map] at hnd
    simp only [List.foldl_cons]
    rw [dinsert_fresh _ _ _ (hfresh kv (by simp))]
    rw [ih (acc ++ [(encode_cache_key kv.1, kv.2)]) ?_ hnd.2]
    · simp
    · intro kv' hkv'
      have h1 : encode_cache_key kv'.1 ∉ dkeys acc := hfresh kv' (by simp [hkv'])
      have h2 : encode_cache_key kv'.1 ≠ encode_cache_key kv.1 := by
        intro he
        exact hnd.1 ⟨kv', hkv', he⟩
      simp [dkeys, List.map_append]
      exact ⟨by simpa [dkeys] using h1, h2⟩

theorem loadCacheAux_roundtrip (cache : List (CKey × α)) :
    ∀ acc : List (CKey × α),
      (∀ kv ∈ cache, decode_cache_key (encode_cache_key kv.1) = some kv.1) →
      (∀ kv ∈ cache, kv.1 ∉ dkeys acc) →
      (cache.map (·.1)).Nodup →
      loadCacheAux (cache.map (fun kv => (encode_cache_key kv.1, kv.2))) acc
        = some (acc ++ cache) := by
  induction cache with
  | nil => intro acc _ _ _; simp [loadCacheAux]
  | cons kv rest ih =>
    intro acc hdec hfresh hnd
    simp only [List.map_cons, List.nodup_cons, List.mem_map] at hnd
    simp only [List.map_cons, loadCacheAux]
    simp only [hdec kv (by simp)]
    rw [dinsert_fresh _ _ _ (hfresh kv (by simp))]
    rw [ih (acc ++ [kv]) (fun kv' h => hdec kv' (by simp [h])) ?_ hnd.2]
    · simp
    · intro kv' hkv'
      have h1 : kv'.1 ∉ dkeys acc := hfresh kv' (by simp [hkv'])
      have h2 : kv'.1 ≠ kv.1 := by
        intro he
        exact hnd.1 ⟨kv', hkv', he⟩
      simp [dkeys, List.map_append]
      exact ⟨by simpa [dkeys] using h1, h2⟩

/-- **C10.** The scan-cache disk format round-trips exactly when MDT names
are colon-free: for a cache whose keys all have a colon-free `mdt`,
`load_cache` after `save_cache` returns an equal map; whereas for a map
whose `mdt` contains a `':'` the serialised key no longer splits back
into three parts with integer indices, and `load_cache` returns the
empty map instead. -/
theorem scan_cache_roundtrip {α : Type} (cache : List (CKey × α)) (w : α)
    (hnc : ∀ kv ∈ cache, ':' ∉ kv.1.1.data)
    (hnd : (cache.map (·.1)).Nodup) :
    load_cache (save_cache cache) = cache ∧
    load_cache (save_cache [((("a:b" : String), (1 : Int), (2 : Int)), w)]) = [] := by
  constructor
  · have hdec : ∀ kv ∈ cache, decode_cache_key (encode_cache_key kv.1) = some kv.1 := by
      intro kv hkv
      exact decode_encode_cache_key kv.1.1 kv.1.2.1 kv.1.2.2 (hnc kv hkv)
    have hndenc : (cache.map (fun kv => encode_cache_key kv.1)).Nodup := by
      have hmm : cache.map (fun kv => encode_cache_key kv.1)
          = (cache.map (·.1)).map encode_cache_key := by simp [List.map_map]
      rw [hmm]
      refine hnd.map_on ?_
      intro x hx y hy hxy
      obtain ⟨kvx, hkvx, hex⟩ := List.mem_map.mp hx
      obtain ⟨kvy, hkvy, hey⟩ := List.mem_map.mp hy
      subst hex
      subst hey
      exact encode_cache_key_inj _ _ (hnc kvx hkvx) (hnc kvy hkvy) hxy
    unfold load_cache save_cache
    rw [save_cache_foldl cache [] (by simp [dkeys]) hndenc]
    rw [List.nil_append]
    rw [loadCacheAux_roundtrip cache [] hdec (by simp [dkeys]) hnd]
    simp
  · have hdec : decode_cache_key (encode_cache_key (("a:b" : String), (1 : Int), (2 : Int)))
        = none := by
      unfold decode_cache_key encode_cache_key
      have hdata : (("a:b" : String) ++ ":" ++ pyIntStr 1 ++ ":" ++ pyIntStr 2).data
          = ['a'] ++ ':' :: (['b'] ++ ':' :: (pyIntChars 1 ++ ':' :: pyIntChars 2)) := by
        simp [String.data_append, pyIntStr]
      rw [hdata, splitCharMax_append ':' 1 ['a'] _ (by decide),
          splitCharMax_append ':' 0 ['b'] _ (by decide), splitCharMax_zero]
      have hb : pyInt? ['b'] = none := by decide
      simp [hb]
    unfold load_cache save_cache
    simp only [List.foldl_cons, List.foldl_nil, dinsert, loadCacheAux, hdec]

/-- Witness for `scan_cache_roundtrip` at a concrete one-entry cache. -/
theorem scan_cache_roundtrip_witness :
    load_cache (save_cache [((("m0" : String), (1 : Int), (2 : Int)), "v")])
        = [((("m0" : String), (1 : Int), (2 : Int)), "v")] ∧
    load_cache (save_cache [((("a:b" : String), (1 : Int), (2 : Int)), "v")]) = [] :=
  scan_cache_roundtrip [((("m0" : String), (1 : Int), (2 : Int)), "v")] "v"
    (by decide) (by decide)

/-! ### One shipper poll cycle (`shipper.do_shipper_poll_cycle`)

The filesystem is abstracted as, per watched file, the MDT name derived
from its path and the outcome `_read_file_safely` observes.  Decoded file
content is the list of its raw lines.  The Redis append is abstracted by
the boolean `appendOk`: `true` models a successful `pipe.execute()` over
all events, `false` models an exception (or no usable connection), in
which case the code leaves the cache untouched.  Iteration order over the
Python set `purged_keys` is unspecified in the source; the model iterates
in cache insertion order, and no claim below depends on that order. -/

/-- A scan-cache value `{hash, action, fid, action_key}`.  A `none` field
models an absent dictionary key (entries loaded from an old cache file
may lack some keys; entries created by this code have all four). -/
structure CacheEntry where
  hash : Option String := none
  action : Option String := none
  fid : Option String := none
  action_key : Option String := none
deriving Repr, DecidableEq

abbrev Cache := List (CKey × CacheEntry)

/-- What the filesystem lets `_read_file_safely` observe for one file. -/
inductive FileOutcome where
  /-- both `os.stat` calls and the read succeed; `statChanged` says whether
  mtime or size differed between them -/
  | ok (lines : List String) (statChanged : Bool)
  /-- `FileNotFoundError` (file disappeared between `glob` and the read) -/
  | notFound
  /-- any other `OSError` while reading -/
  | ioError
deriving Repr, DecidableEq

/-- `shipper._read_file_safely`: returns the content and the stability
flag.  Note the source treats `FileNotFoundError` as *stable* empty
content (`return b'', True`). -/
def read_file_safely : FileOutcome → List String × Bool
  | .ok lines statChanged => (lines, !statChanged)
  | .notFound => ([], true)
  | .ioError => ([], false)

/-- A stream event as built by the shipper (`{**data, ...}` for NEW/UPDATE,
the PURGED payload updated with the cached record).  A `none` field models
an absent dictionary key. -/
structure Event where
  event_type : String
  mdt : String
  cat_idx : Option Int := none
  rec_idx : Option Int := none
  action : Option String := none
  fid : Option String := none
  status : Option String := none
  action_key : Option String := none
  raw : Option String := none
  hash : Option String := none
  timestamp : Int
deriving Repr, DecidableEq

/-- The mutable state accumulated during one poll cycle:
`events_to_ship`, `pending_cache_updates` (`none` = delete),
`keys_seen_this_cycle`, `unstable_mdts` and `locally_discovered_mdts`. -/
structure PollSt where
  events : List Event := []
  pending : List (CKey × Option CacheEntry) := []
  seen : List CKey := []
  unstable : List String := []
  discovered : List String := []
deriving Repr, DecidableEq

/-- Python truthiness of an optional string (`None` and `""` are falsy). -/
def strFalsy : Option String → Bool
  | none => true
  | some s => s = ""

/-- Processing of one snapshot line inside the per-file `try` block.
`Except.error` models the uncaught `KeyError` raised by
`f"{data['fid']}:{data['action']}"` when the parsed record has a `fid`
but no `action` (the code checks only `'fid' not in data`). -/
def processLine (hashFn : String → String) (mdt : String) (now : Int) (cache : Cache)
    (st : PollSt) (rawLine : String) : Except Unit PollSt :=
  let line := pyStripWsStr rawLine
  if line = "" then .ok st
  else
    match parse_action_line line with
    | none => .ok st
    | some data =>
      match data.fid with
      | none => .ok st
      | some fidv =>
        match data.action with
        | none => .error ()
        | some act =>
          let action_key := fidv ++ ":" ++ act
          let key : CKey := (mdt, data.cat_idx, data.rec_idx)
          let st1 := { st with seen := st.seen ++ [key] }
          let line_hash := hashFn line
          if ((dget? key cache).bind (·.hash)) ≠ some line_hash then
            let entry : CacheEntry :=
              { hash := some line_hash, action := data.action, fid := data.fid,
                action_key := some action_key }
            let etype := if (dget? key cache).isSome then "UPDATE" else "NEW"
            let ev : Event :=
              { event_type := etype, mdt := mdt, cat_idx := some data.cat_idx,
                rec_idx := some data.rec_idx, action := data.action, fid := data.fid,
                status := data.status, action_key := some action_key,
                raw := some line, timestamp := now }
            .ok { st1 with events := st1.events ++ [ev],
                           pending := dinsert key (some entry) st1.pending }
          else .ok st1

/-- The per-file line loop; the first uncaught exception stops processing
of the remaining lines of that file (caught by the per-file `except`),
keeping the state accumulated so far. -/
def processLines (hashFn : String → String) (mdt : String) (now : Int) (cache : Cache) :
    PollSt → List String → PollSt
  | st, [] => st
  | st, l :: ls =>
    match processLine hashFn mdt now cache st l with
    | .ok st' => processLines hashFn mdt now cache st' ls
    | .error _ => st

/-- Processing of one watched file: record the MDT, read the file safely,
flag instability, then scan the content. -/
def processFile (hashFn : String → String) (now : Int) (cache : Cache)
    (st : PollSt) (file : String × FileOutcome) : PollSt :=
  let mdt := file.1
  let st1 := { st with discovered := st.discovered ++ [mdt] }
  let rd := read_file_safely file.2
  let st2 := if rd.2 then st1 else { st1 with unstable := st1.unstable ++ [mdt] }
  processLines hashFn mdt now cache st2 rd.1

/-- The `action_key` chosen for a PURGED event:
`cached_info.get('action_key')`, else `f"{fid}:{action}"` when both are
truthy, else the `"unknown:{cat}:{rec}"` placeholder. -/
def purgeActionKey (key : CKey) (ci : CacheEntry) : String :=
  let a0 := ci.action_key
  let a1 :=
    if strFalsy a0 ∧ ¬ strFalsy ci.fid ∧ ¬ strFalsy ci.action then
      some (ci.fid.getD "" ++ ":" ++ ci.action.getD "")
    else a0
  if strFalsy a1 then "unknown:" ++ pyIntStr key.2.1 ++ ":" ++ pyIntStr key.2.2
  else a1.getD ""

/-- The PURGED `event_payload` followed by `event_payload.update(cached_info)`:
fields present in the cached record overwrite the payload. -/
def mkPurgeEvent (now : Int) (key : CKey) (ci : CacheEntry) : Event :=
  { event_type := "PURGED", mdt := key.1, cat_idx := some key.2.1,
    rec_idx := some key.2.2, timestamp := now, status := some "PURGED",
    action := ci.action, fid := ci.fid, hash := ci.hash,
    action_key := match ci.action_key with
      | some s => some s
      | none => some (purgeActionKey key ci) }

/-- One iteration of the purge-detection loop: a key of an unstable MDT
is deferred, every other key gets a pending deletion and a PURGED event
(the `cached_info` is `None`-guarded in the source; the fallback builds
the event from an empty record). -/
def purgeStep (now : Int) (cache : Cache) (st : PollSt) (k : CKey) : PollSt :=
  if k.1 ∈ st.unstable then st
  else
    match dget? k cache with
    | some ci =>
      { st with pending := dinsert k none st.pending,
                events := st.events ++ [mkPurgeEvent now k ci] }
    | none =>
      { st with pending := dinsert k none st.pending,
                events := st.events ++ [mkPurgeEvent now k {}] }

/-- The purge-detection loop over `purged_keys = set(cache) - keys_seen`. -/
def purgePhase (now : Int) (cache : Cache) (st : PollSt) : PollSt :=
  ((dkeys cache).filter (fun k => decide (k ∉ st.seen))).foldl (purgeStep now cache) st

/-- Application of `pending_cache_updates` to the cache after a successful
append: `None` deletes the key, a record overwrites it. -/
def applyPending (pending : List (CKey × Option CacheEntry)) (cache : Cache) : Cache :=
  pending.foldl
    (fun c kv =>
      match kv.2 with
      | none => dremove kv.1 c
      | some v => dinsert kv.1 v c)
    cache

/-- The observable result of one poll cycle. -/
structure CycleResult where
  /-- `events_to_ship` -/
  events : List Event
  /-- the cache after the cycle -/
  cacheAfter : Cache
  /-- whether `save_cache` ran (only after a successful append) -/
  saved : Bool
  /-- the events actually appended to the Redis streams -/
  appended : List Event
  /-- `keys_seen_this_cycle` -/
  seen : List CKey
  /-- `unstable_mdts` -/
  unstable : List String
  /-- `locally_discovered_mdts` -/
  discovered : List String
deriving Repr, DecidableEq

/-- `shipper.do_shipper_poll_cycle` for one cycle: scan all files, detect
purges, then append-and-commit.  The cache is mutated and saved only when
there are events and the pipelined append succeeds. -/
def do_shipper_poll_cycle (hashFn : String → String)
    (files : List (String × FileOutcome)) (cache : Cache)
    (appendOk : Bool) (now : Int) : CycleResult :=
  let st1 := files.foldl (processFile hashFn now cache) {}
  let st2 := purgePhase now cache st1
  if st2.events ≠ [] ∧ appendOk then
    { events := st2.events, cacheAfter := applyPending st2.pending cache,
      saved := true, appended := st2.events, seen := st2.seen,
      unstable := st2.unstable, discovered := st2.discovered }
  else
    { events := st2.events, cacheAfter := cache, saved := false, appended := [],
      seen := st2.seen, unstable := st2.unstable, discovered := st2.discovered }

/-! ### Structural lemmas about one poll cycle -/

theorem processLine_ok_spec (hashFn : String → String) (mdt : String) (now : Int)
    (cache : Cache) (st : PollSt) (l : String) (st' : PollSt)
    (h : processLine hashFn mdt now cache st l = Except.ok st') :
    st'.unstable = st.unstable ∧ st'.discovered = st.discovered ∧
    (∀ k ∈ st.seen, k ∈ st'.seen) ∧
    (∀ k ∈ dkeys st'.pending, k ∈ dkeys st.pending ∨ k ∈ st'.seen) ∧
    (∀ e ∈ st'.events, e ∈ st.events ∨ e.event_type = "NEW" ∨ e.event_type = "UPDATE") := by
  simp only [processLine] at h
  split at h
  · cases h
    exact ⟨rfl, rfl, fun k hk => hk, fun k hk => Or.inl hk, fun e he => Or.inl he⟩
  · split at h
    · cases h
      exact ⟨rfl, rfl, fun k hk => hk, fun k hk => Or.inl hk, fun e he => Or.inl he⟩
    · split at h
      · cases h
        exact ⟨rfl, rfl, fun k hk => hk, fun k hk => Or.inl hk, fun e he => Or.inl he⟩
      · split at h
        · cases h
        · split at h
          · cases h
            refine ⟨rfl, rfl, ?_, ?_, ?_⟩
            · intro k hk
              simp [hk]
            · intro k hk
              rcases dkeys_dinsert_subset _ _ _ k hk with hke | hkp
              · right
                simp [hke]
              · exact Or.inl hkp
            · intro e he
              rcases List.mem_append.mp he with he' | he'
              · exact Or.inl he'
              · simp only [List.mem_singleton] at he'
                subst he'
                right
                split
                · right; rfl
                · left; rfl
          · cases h
            exact ⟨rfl, rfl, fun k hk => by simp [hk], fun k hk => Or.inl hk,
                   fun e he => Or.inl he⟩

/-- Growth relation between poll states along the scan phase: MDT sets
and `keys_seen` only grow, new pending keys were seen, and new events are
NEW or UPDATE. -/
def FileRel (st st' : PollSt) : Prop :=
  (∀ m ∈ st.unstable, m ∈ st'.unstable) ∧
  (∀ k ∈ st.seen, k ∈ st'.seen) ∧
  (∀ k ∈ dkeys st'.pending, k ∈ dkeys st.pending ∨ k ∈ st'.seen) ∧
  (∀ e ∈ st'.events, e ∈ st.events ∨ e.event_type = "NEW" ∨ e.event_type = "UPDATE")

theorem FileRel.rfl (st : PollSt) : FileRel st st :=
  ⟨fun _ h => h, fun _ h => h, fun _ h => Or.inl h, fun _ h => Or.inl h⟩

theorem FileRel.trans {s t u : PollSt} (h1 : FileRel s t) (h2 : FileRel t u) :
    FileRel s u := by
  refine ⟨fun m hm => h2.1 m (h1.1 m hm), fun k hk => h2.2.1 k (h1.2.1 k hk), ?_, ?_⟩
  · intro k hk
    rcases h2.2.2.1 k hk with hk' | hk'
    · rcases h1.2.2.1 k hk' with hk'' | hk''
      · exact Or.inl hk''
      · exact Or.inr (h2.2.1 k hk'')
    · exact Or.inr hk'
  · intro e he
    rcases h2.2.2.2 e he with he' | he'
    · exact h1.2.2.2 e he'
    · exact Or.inr he'

theorem processLine_rel (hashFn : String → String) (mdt : String) (now : Int)
    (cache : Cache) (st : PollSt) (l : String) (st' : PollSt)
    (h : processLine hashFn mdt now cache st l = Except.ok st') :
    FileRel st st' ∧ st'.unstable = st.unstable ∧ st'.discovered = st.discovered := by
  obtain ⟨h1, h2, h3, h4, h5⟩ := processLine_ok_spec hashFn mdt now cache st l st' h
  exact ⟨⟨fun m hm => h1 ▸ hm, h3, h4, h5⟩, h1, h2⟩

theorem processLines_rel (hashFn : String → String) (mdt : String) (now : Int)
    (cache : Cache) : ∀ (ls : List String) (st : PollSt),
    FileRel st (processLines hashFn mdt now cache st ls) ∧
      (processLines hashFn mdt now cache st ls).unstable = st.unstable ∧
      (processLines hashFn mdt now cache st ls).discovered = st.discovered := by
  intro ls
  induction ls with
  | nil => intro st; exact ⟨FileRel.rfl st, rfl, rfl⟩
  | cons l ls ih =>
    intro st
    show FileRel st (processLines hashFn mdt now cache st (l :: ls)) ∧ _
    unfold processLines
    cases hpl : processLine hashFn mdt now cache st l with
    | ok st1 =>
      obtain ⟨hrel, hu, hd⟩ := processLine_rel hashFn mdt now cache st l st1 hpl
      obtain ⟨hrel2, hu2, hd2⟩ := ih st1
      exact ⟨hrel.trans hrel2, hu2.trans hu, hd2.trans hd⟩
    | error e => exact ⟨FileRel.rfl st, rfl, rfl⟩

theorem processFile_rel (hashFn : String → String) (now : Int) (cache : Cache)
    (st : PollSt) (file : String × FileOutcome) :
    FileRel st (processFile hashFn now cache st file) ∧
      ((read_file_safely file.2).2 = false →
        file.1 ∈ (processFile hashFn now cache st file).unstable) := by
  unfold processFile
  rcases hrd : read_file_safely file.2 with ⟨lines, stable⟩
  obtain ⟨hrel, hu, hd⟩ := processLines_rel hashFn file.1 now cache lines
    (if stable
     then { st with discovered := st.discovered ++ [file.1] }
     else { st with discovered := st.discovered ++ [file.1],
                    unstable := st.unstable ++ [file.1] })
  cases stable with
  | true =>
    simp only [if_true] at hrel hu ⊢
    refine ⟨?_, by simp⟩
    refine FileRel.trans ?_ hrel
    exact ⟨fun m hm => hm, fun k hk => hk, fun k hk => Or.inl hk, fun e he => Or.inl he⟩
  | false =>
    simp only [if_false, Bool.false_eq_true] at hrel hu ⊢
    constructor
    · refine FileRel.trans ?_ hrel
      exact ⟨fun m hm => by simp [hm], fun k hk => hk, fun k hk => Or.inl hk,
             fun e he => Or.inl he⟩
    · intro _
      rw [hu]
      simp

theorem filesFold_rel (hashFn : String → String) (now : Int) (cache : Cache)
    (files : List (String × FileOutcome)) :
    ∀ st : PollSt,
      FileRel st (files.foldl (processFile hashFn now cache) st) ∧
      (∀ mdt o, (mdt, o) ∈ files → (read_file_safely o).2 = false →
        mdt ∈ (files.foldl (processFile hashFn now cache) st).unstable) := by
  induction files with
  | nil =>
    intro st
    exact ⟨FileRel.rfl st, fun mdt o h => absurd h (List.not_mem_nil _)⟩
  | cons f fs ih =>
    intro st
    simp only [List.foldl_cons]
    obtain ⟨hrel1, hmem1⟩ := processFile_rel hashFn now cache st f
    obtain ⟨hrel2, hmem2⟩ := ih (processFile hashFn now cache st f)
    refine ⟨hrel1.trans hrel2, ?_⟩
    intro mdt o hmo hunst
    rcases List.mem_cons.mp hmo with hmo | hmo
    · subst hmo
      exact hrel2.1 mdt (hmem1 hunst)
    · exact hmem2 mdt o hmo hunst

theorem purgeStep_spec (now : Int) (cache : Cache) (st : PollSt) (k : CKey) :
    (purgeStep now cache st k).seen = st.seen ∧
    (purgeStep now cache st k).unstable = st.unstable ∧
    (purgeStep now cache st k).discovered = st.discovered ∧
    (∀ k' ∈ dkeys (purgeStep now cache st k).pending,
        k' ∈ dkeys st.pending ∨ (k' = k ∧ ¬ k.1 ∈ st.unstable)) ∧
    (∀ e ∈ (purgeStep now cache st k).events,
        e ∈ st.events ∨ (e.event_type = "PURGED" ∧ e.mdt = k.1 ∧ ¬ k.1 ∈ st.unstable)) := by
  unfold purgeStep
  split
  · exact ⟨rfl, rfl, rfl, fun k' h => Or.inl h, fun e h => Or.inl h⟩
  · rename_i hns
    split
    all_goals
      refine ⟨rfl, rfl, rfl, ?_, ?_⟩
      · intro k' hk'
        rcases dkeys_dinsert_subset _ _ _ k' hk' with h | h
        · exact Or.inr ⟨h, hns⟩
        · exact Or.inl h
      · intro e he
        rcases List.mem_append.mp he with h | h
        · exact Or.inl h
        · simp only [List.mem_singleton] at h
          subst h
          exact Or.inr ⟨rfl, rfl, hns⟩

theorem purgeFold_spec (now : Int) (cache : Cache) (ks : List CKey) :
    ∀ st : PollSt,
      (ks.foldl (purgeStep now cache) st).seen = st.seen ∧
      (ks.foldl (purgeStep now cache) st).unstable = st.unstable ∧
      (ks.foldl (purgeStep now cache) st).discovered = st.discovered ∧
      (∀ k' ∈ dkeys (ks.foldl (purgeStep now cache) st).pending,
          k' ∈ dkeys st.pending ∨ (k' ∈ ks ∧ ¬ k'.1 ∈ st.unstable)) ∧
      (∀ e ∈ (ks.foldl (purgeStep now cache) st).events,
          e ∈ st.events ∨ (e.event_type = "PURGED" ∧ ¬ e.mdt ∈ st.unstable)) := by
  induction ks with
  | nil =>
    intro st
    exact ⟨rfl, rfl, rfl, fun k' h => Or.inl h, fun e h => Or.inl h⟩
  | cons k ks ih =>
    intro st
    simp only [List.foldl_cons]
    obtain ⟨hs1, hu1, hd1, hp1, he1⟩ := purgeStep_spec now cache st k
    obtain ⟨hs2, hu2, hd2, hp2, he2⟩ := ih (purgeStep now cache st k)
    refine ⟨hs2.trans hs1, hu2.trans hu1, hd2.trans hd1, ?_, ?_⟩
    · intro k' hk'
      rcases hp2 k' hk' with h | h
      · rcases hp1 k' h with h' | h'
        · exact Or.inl h'
        · exact Or.inr ⟨by simp [h'.1], h'.1 ▸ h'.2⟩
      · rw [hu1] at h
        exact Or.inr ⟨by simp [h.1], h.2⟩
    · intro e he
      rcases he2 e he with h | h
      · rcases he1 e h with h' | h'
        · exact Or.inl h'
        · exact Or.inr ⟨h'.1, h'.2.1 ▸ h'.2.2⟩
      · rw [hu1] at h
        exact Or.inr h

theorem purgePhase_spec (now : Int) (cache : Cache) (st : PollSt) :
    (purgePhase now cache st).seen = st.seen ∧
    (purgePhase now cache st).unstable = st.unstable ∧
    (purgePhase now cache st).discovered = st.discovered ∧
    (∀ k' ∈ dkeys (purgePhase now cache st).pending,
        k' ∈ dkeys st.pending ∨ (¬ k' ∈ st.seen ∧ ¬ k'.1 ∈ st.unstable)) ∧
    (∀ e ∈ (purgePhase now cache st).events,
        e ∈ st.events ∨ (e.event_type = "PURGED" ∧ ¬ e.mdt ∈ st.unstable)) := by
  unfold purgePhase
  obtain ⟨h1, h2, h3, h4, h5⟩ :=
    purgeFold_spec now cache ((dkeys cache).filter (fun k => decide (¬ k ∈ st.seen))) st
  refine ⟨h1, h2, h3, ?_, h5⟩
  intro k' hk'
  rcases h4 k' hk' with h | h
  · exact Or.inl h
  · refine Or.inr ⟨?_, h.2⟩
    have := List.of_mem_filter h.1
    simpa using this

theorem applyPending_dget?_not_mem (ps : List (CKey × Option CacheEntry)) :
    ∀ (cache : Cache) (k : CKey), ¬ k ∈ ps.map (·.1) →
      dget? k (applyPending ps cache) = dget? k cache := by
  induction ps with
  | nil => intro cache k _; rfl
  | cons p ps ih =>
    intro cache k hk
    simp only [List.map_cons, List.mem_cons, not_or] at hk
    unfold applyPending
    simp only [List.foldl_cons]
    show dget? k (applyPending ps _) = _
    cases hp2 : p.2 with
    | none =>
      rw [ih _ k (by simpa using hk.2)]
      exact dget?_dremove_ne p.1 k cache (fun h => hk.1 h)
    | some v =>
      rw [ih _ k (by simpa using hk.2)]
      exact dget?_dinsert_ne p.1 k v cache (fun h => hk.1 h)

theorem cycle_events_eq (hashFn : String → String) (files : List (String × FileOutcome))
    (cache : Cache) (appendOk : Bool) (now : Int) :
    (do_shipper_poll_cycle hashFn files cache appendOk now).events
      = (purgePhase now cache (files.foldl (processFile hashFn now cache) {})).events := by
  simp only [do_shipper_poll_cycle]
  split <;> rfl

theorem cycle_seen_eq (hashFn : String → String) (files : List (String × FileOutcome))
    (cache : Cache) (appendOk : Bool) (now : Int) :
    (do_shipper_poll_cycle hashFn files cache appendOk now).seen
      = (purgePhase now cache (files.foldl (processFile hashFn now cache) {})).seen := by
  simp only [do_shipper_poll_cycle]
  split <;> rfl

theorem cycle_unstable_eq (hashFn : String → String) (files : List (String × FileOutcome))
    (cache : Cache) (appendOk : Bool) (now : Int) :
    (do_shipper_poll_cycle hashFn files cache appendOk now).unstable
      = (purgePhase now cache (files.foldl (processFile hashFn now cache) {})).unstable := by
  simp only [do_shipper_poll_cycle]
  split <;> rfl

theorem cycle_commit_cases (hashFn : String → String) (files : List (String × FileOutcome))
    (cache : Cache) (appendOk : Bool) (now : Int) :
    ((do_shipper_poll_cycle hashFn files cache appendOk now).saved = true ∧
     appendOk = true ∧
     (do_shipper_poll_cycle hashFn files cache appendOk now).events ≠ [] ∧
     (do_shipper_poll_cycle hashFn files cache appendOk now).appended
       = (do_shipper_poll_cycle hashFn files cache appendOk now).events ∧
     (do_shipper_poll_cycle hashFn files cache appendOk now).cacheAfter
       = applyPending
           (purgePhase now cache (files.foldl (processFile hashFn now cache) {})).pending
           cache) ∨
    ((do_shipper_poll_cycle hashFn files cache appendOk now).saved = false ∧
     (do_shipper_poll_cycle hashFn files cache appendOk now).appended = [] ∧
     (do_shipper_poll_cycle hashFn files cache appendOk now).cacheAfter = cache) := by
  simp only [do_shipper_poll_cycle]
  split
  · rename_i hc
    exact Or.inl ⟨rfl, hc.2, hc.1, rfl, rfl⟩
  · exact Or.inr ⟨rfl, rfl, rfl⟩

/-- **C3.** For every poll cycle in which appending the cycle's events to
the streams fails, the scan cache (in memory, and on disk via
`save_cache`) is left exactly as it was before the cycle; and the cache
is never mutated or saved except immediately after a successful append of
all of that cycle's events. -/
theorem shipper_commit_only_after_append (hashFn : String → String)
    (files : List (String × FileOutcome)) (cache : Cache) (now : Int) :
    ((do_shipper_poll_cycle hashFn files cache false now).cacheAfter = cache ∧
     (do_shipper_poll_cycle hashFn files cache false now).saved = false ∧
     (do_shipper_poll_cycle hashFn files cache false now).appended = []) ∧
    (∀ appendOk : Bool,
      ((do_shipper_poll_cycle hashFn files cache appendOk now).saved = true ∨
       (do_shipper_poll_cycle hashFn files cache appendOk now).cacheAfter ≠ cache) →
      (appendOk = true ∧
       (do_shipper_poll_cycle hashFn files cache appendOk now).appended
         = (do_shipper_poll_cycle hashFn files cache appendOk now).events ∧
       (do_shipper_poll_cycle hashFn files cache appendOk now).events ≠ [])) := by
  constructor
  · rcases cycle_commit_cases hashFn files cache false now with hcc | hcc
    · exact absurd hcc.2.1 (by decide)
    · exact ⟨hcc.2.2, hcc.1, hcc.2.1⟩
  · intro appendOk h
    rcases cycle_commit_cases hashFn files cache appendOk now with hcc | hcc
    · refine ⟨hcc.2.1, ?_, hcc.2.2.1⟩
      rw [cycle_events_eq]
      rw [hcc.2.2.2.1, cycle_events_eq]
    · rcases h with h | h
      · rw [hcc.1] at h
        exact absurd h (by decide)
      · exact absurd hcc.2.2 h

/-- Witness for `shipper_commit_only_after_append`: a concrete cycle with
one NEW event commits, so the inner hypothesis is satisfiable. -/
theorem shipper_commit_only_after_append_witness :
    true = true ∧
    (do_shipper_poll_cycle (fun s => s)
        [("m0", FileOutcome.ok ["idx=[1/1] action=ARCHIVE fid=[0xa] status=STARTED"] false)]
        [] true 5).appended
      = (do_shipper_poll_cycle (fun s => s)
        [("m0", FileOutcome.ok ["idx=[1/1] action=ARCHIVE fid=[0xa] status=STARTED"] false)]
        [] true 5).events ∧
    (do_shipper_poll_cycle (fun s => s)
        [("m0", FileOutcome.ok ["idx=[1/1] action=ARCHIVE fid=[0xa] status=STARTED"] false)]
        [] true 5).events ≠ [] :=
  (shipper_commit_only_after_append (fun s => s)
      [("m0", FileOutcome.ok ["idx=[1/1] action=ARCHIVE fid=[0xa] status=STARTED"] false)]
      [] 5).2 true (Or.inl (by decide))

/-- **C4.** For every poll cycle and every MDT whose file stat (mtime or
size) changed between the pre-read and post-read checks, the cycle emits
zero PURGED events for that MDT, and every cached key of that MDT absent
from `keys_seen` is kept unchanged in the cache.  (Events for an unseen
key can only be PURGED — NEW/UPDATE events always record their key in
`keys_seen` first — so such keys produce no event at all.) -/
theorem unstable_mdt_defers_purge (hashFn : String → String)
    (files : List (String × FileOutcome)) (cache : Cache) (appendOk : Bool)
    (now : Int) (mdt : String) (lines : List String)
    (hf : (mdt, FileOutcome.ok lines true) ∈ files) :
    (∀ e ∈ (do_shipper_poll_cycle hashFn files cache appendOk now).events,
        e.mdt = mdt → e.event_type ≠ "PURGED") ∧
    (∀ k : CKey, k.1 = mdt →
        ¬ k ∈ (do_shipper_poll_cycle hashFn files cache appendOk now).seen →
        dget? k (do_shipper_poll_cycle hashFn files cache appendOk now).cacheAfter
          = dget? k cache) := by
  have hstable : (read_file_safely (FileOutcome.ok lines true)).2 = false := rfl
  have hmdt : mdt ∈ (files.foldl (processFile hashFn now cache) {}).unstable :=
    (filesFold_rel hashFn now cache files {}).2 mdt _ hf hstable
  obtain ⟨hps, hpu, hpd, hpp, hpe⟩ :=
    purgePhase_spec now cache (files.foldl (processFile hashFn now cache) {})
  have hfrel := (filesFold_rel hashFn now cache files {}).1
  constructor
  · intro e he hemdt
    rw [cycle_events_eq] at he
    rcases hpe e he with h | h
    · rcases hfrel.2.2.2 e h with h' | h'
      · exact absurd h' (List.not_mem_nil e)
      · rcases h' with h' | h' <;> rw [h'] <;> decide
    · rw [hemdt] at h
      exact absurd hmdt h.2
  · intro k hk1 hkseen
    rw [cycle_seen_eq, hps] at hkseen
    have hknp : ¬ k ∈ dkeys (purgePhase now cache
        (files.foldl (processFile hashFn now cache) {})).pending := by
      intro hk
      rcases hpp k hk with h | h
      · rcases hfrel.2.2.1 k h with h' | h'
        · exact absurd h' (List.not_mem_nil k)
        · exact hkseen h'
      · rw [hk1] at h
        exact h.2 hmdt
    rcases cycle_commit_cases hashFn files cache appendOk now with hcc | hcc
    · rw [hcc.2.2.2.2]
      exact applyPending_dget?_not_mem _ cache k hknp
    · rw [hcc.2.2]

/-- Witness for `unstable_mdt_defers_purge` at a concrete unstable file. -/
theorem unstable_mdt_defers_purge_witness :
    (∀ e ∈ (do_shipper_poll_cycle (fun s => s) [("m0", FileOutcome.ok [] true)]
        [(("m0", 1, 1), { hash := some "h", action := some "ARCHIVE", fid := some "0xa",
                          action_key := some "0xa:ARCHIVE" })] true 5).events,
        e.mdt = "m0" → e.event_type ≠ "PURGED") ∧
    (∀ k : CKey, k.1 = "m0" →
        ¬ k ∈ (do_shipper_poll_cycle (fun s => s) [("m0", FileOutcome.ok [] true)]
            [(("m0", 1, 1), { hash := some "h", action := some "ARCHIVE", fid := some "0xa",
                              action_key := some "0xa:ARCHIVE" })] true 5).seen →
        dget? k (do_shipper_poll_cycle (fun s => s) [("m0", FileOutcome.ok [] true)]
            [(("m0", 1, 1), { hash := some "h", action := some "ARCHIVE", fid := some "0xa",
                              action_key := some "0xa:ARCHIVE" })] true 5).cacheAfter
          = dget? k [(("m0", 1, 1), { hash := some "h", action := some "ARCHIVE",
                                      fid := some "0xa", action_key := some "0xa:ARCHIVE" })]) :=
  unstable_mdt_defers_purge (fun s => s) [("m0", FileOutcome.ok [] true)]
    [(("m0", 1, 1), { hash := some "h", action := some "ARCHIVE", fid := some "0xa",
                      action_key := some "0xa:ARCHIVE" })] true 5 "m0" [] (by decide)

theorem dkeys_dinsert_self [DecidableEq κ] (k : κ) (v : α) (d : List (κ × α)) :
    k ∈ dkeys (dinsert k v d) := by
  induction d with
  | nil => simp [dinsert, dkeys]
  | cons p rest ih =>
    by_cases h : p.1 = k
    · simp [dinsert, h, dkeys]
    · simp only [dinsert, if_neg h, dkeys, List.map_cons, List.mem_cons]
      exact Or.inr ih

theorem dkeys_dinsert_mono [DecidableEq κ] (k k' : κ) (v : α) (d : List (κ × α))
    (h : k' ∈ dkeys d) : k' ∈ dkeys (dinsert k v d) := by
  induction d with
  | nil => simp [dkeys] at h
  | cons p rest ih =>
    simp only [dkeys, List.map_cons, List.mem_cons] at h
    by_cases hp : p.1 = k
    · rcases h with h | h
      · simp [dinsert, hp, dkeys, h, hp ▸ h]
      · simp only [dinsert, if_pos hp, dkeys, List.map_cons, List.mem_cons]
        exact Or.inr (by simpa [dkeys] using h)
    · simp only [dinsert, if_neg hp, dkeys, List.map_cons, List.mem_cons]
      rcases h with h | h
      · exact Or.inl h
      · exact Or.inr (ih (by simpa [dkeys] using h))

theorem mem_dinsert [DecidableEq κ] (k : κ) (v : α) (d : List (κ × α)) (p : κ × α)
    (h : p ∈ dinsert k v d) : p = (k, v) ∨ p ∈ d := by
  induction d with
  | nil => simpa [dinsert] using h
  | cons q rest ih =>
    by_cases hq : q.1 = k
    · simp only [dinsert, if_pos hq, List.mem_cons] at h
      rcases h with h | h
      · exact Or.inl h
      · exact Or.inr (by simp [h])
    · simp only [dinsert, if_neg hq, List.mem_cons] at h
      rcases h with h | h
      · exact Or.inr (by simp [h])
      · rcases ih h with h' | h'
        · exact Or.inl h'
        · exact Or.inr (by simp [h'])

theorem mem_dkeys_dremove [DecidableEq κ] (k0 k : κ) (d : List (κ × α))
    (h : k ∈ dkeys (dremove k0 d)) : k ∈ dkeys d ∧ k ≠ k0 := by
  induction d with
  | nil => simp [dremove, dkeys] at h
  | cons p rest ih =>
    by_cases hp : p.1 = k0
    · simp only [dremove, if_pos hp] at h
      obtain ⟨h1, h2⟩ := ih h
      exact ⟨by simp [dkeys] at h1 ⊢; exact Or.inr h1, h2⟩
    · simp only [dremove, if_neg hp, dkeys, List.map_cons, List.mem_cons] at h
      rcases h with h | h
      · refine ⟨by simp [dkeys, h], ?_⟩
        rw [h]
        exact fun hc => hp hc
      · obtain ⟨h1, h2⟩ := ih (by simpa [dkeys] using h)
        exact ⟨by simp [dkeys] at h1 ⊢; exact Or.inr h1, h2⟩

theorem dget?_isSome_of_mem_dkeys [DecidableEq κ] (k : κ) (d : List (κ × α))
    (h : k ∈ dkeys d) : (dget? k d).isSome := by
  induction d with
  | nil => simp [dkeys] at h
  | cons p rest ih =>
    by_cases hp : p.1 = k
    · simp [dget?, hp]
    · simp only [dkeys, List.map_cons, List.mem_cons] at h
      rcases h with h | h
      · exact absurd h.symm hp
      · simp only [dget?, if_neg hp]
        exact ih (by simpa [dkeys] using h)

theorem purgeStep_pending_mono (now : Int) (cache : Cache) (st : PollSt) (k : CKey)
    (k' : CKey) (h : k' ∈ dkeys st.pending) :
    k' ∈ dkeys (purgeStep now cache st k).pending := by
  unfold purgeStep
  split
  · exact h
  · split
    · exact dkeys_dinsert_mono k k' none st.pending h
    · exact dkeys_dinsert_mono k k' none st.pending h

theorem purgeFold_pending_mono (now : Int) (cache : Cache) (ks : List CKey) :
    ∀ (st : PollSt) (k' : CKey), k' ∈ dkeys st.pending →
      k' ∈ dkeys ((ks.foldl (purgeStep now cache) st)).pending := by
  induction ks with
  | nil => intro st k' h; exact h
  | cons k ks ih =>
    intro st k' h
    simp only [List.foldl_cons]
    exact ih _ k' (purgeStep_pending_mono now cache st k k' h)

theorem purgeFold_full (now : Int) (cache : Cache) (ks : List CKey) :
    ∀ st : PollSt, st.unstable = [] →
      (∀ k ∈ ks, (dget? k cache).isSome) →
      ∃ evs : List Event,
        (ks.foldl (purgeStep now cache) st).events = st.events ++ evs ∧
        evs.length = ks.length ∧
        (∀ e ∈ evs, e.event_type = "PURGED") ∧
        (∀ k ∈ ks, k ∈ dkeys (ks.foldl (purgeStep now cache) st).pending) ∧
        (∀ p ∈ (ks.foldl (purgeStep now cache) st).pending, p ∈ st.pending ∨ p.2 = none) := by
  induction ks with
  | nil =>
    intro st _ _
    exact ⟨[], by simp, rfl, by simp, by simp, fun p hp => Or.inl hp⟩
  | cons k ks ih =>
    intro st hu hsome
    have hk1 : ¬ k.1 ∈ st.unstable := by
      rw [hu]
      exact List.not_mem_nil _
    obtain ⟨ci, hci⟩ := Option.isSome_iff_exists.mp (hsome k (by simp))
    have hstep : purgeStep now cache st k
        = { st with pending := dinsert k none st.pending,
                    events := st.events ++ [mkPurgeEvent now k ci] } := by
      unfold purgeStep
      rw [if_neg hk1, hci]
    simp only [List.foldl_cons, hstep]
    obtain ⟨evs, hev, hlen, htype, hpend, hnone⟩ :=
      ih { st with pending := dinsert k none st.pending,
                   events := st.events ++ [mkPurgeEvent now k ci] }
        (by simp [hu]) (fun k' hk' => hsome k' (by simp [hk']))
    refine ⟨mkPurgeEvent now k ci :: evs, ?_, by simp [hlen], ?_, ?_, ?_⟩
    · simp only at hev
      rw [hev]
      simp
    · intro e he
      rcases List.mem_cons.mp he with he | he
      · subst he
        rfl
      · exact htype e he
    · intro k' hk'
      rcases List.mem_cons.mp hk' with hk' | hk'
      · subst hk'
        exact purgeFold_pending_mono now cache ks _ k'
          (by simpa using dkeys_dinsert_self k' none st.pending)
      · exact hpend k' hk'
    · intro p hp
      rcases hnone p hp with hp' | hp'
      · simp only at hp'
        rcases mem_dinsert k none st.pending p hp' with h | h
        · exact Or.inr (by simp [h])
        · exact Or.inl h
      · exact Or.inr hp'

theorem applyPending_all_none_covers (ps : List (CKey × Option CacheEntry)) :
    ∀ cache : Cache, (∀ p ∈ ps, p.2 = none) →
      (∀ k ∈ dkeys cache, k ∈ ps.map (·.1)) → applyPending ps cache = [] := by
  induction ps with
  | nil =>
    intro cache _ hcov
    cases cache with
    | nil => rfl
    | cons p rest => exact absurd (hcov p.1 (by simp [dkeys])) (List.not_mem_nil _)
  | cons p ps ih =>
    intro cache hnone hcov
    unfold applyPending
    simp only [List.foldl_cons]
    rw [hnone p (by simp)]
    show applyPending ps (dremove p.1 cache) = []
    refine ih (dremove p.1 cache) (fun q hq => hnone q (by simp [hq])) ?_
    intro k hk
    obtain ⟨h1, h2⟩ := mem_dkeys_dremove p.1 k cache hk
    have := hcov k h1
    simp only [List.map_cons, List.mem_cons] at this
    rcases this with h | h
    · exact absurd h h2
    · exact h

theorem cycle_commit_of_events_ne (hashFn : String → String)
    (files : List (String × FileOutcome)) (cache : Cache) (now : Int)
    (hne : (purgePhase now cache (files.foldl (processFile hashFn now cache) {})).events ≠ []) :
    (do_shipper_poll_cycle hashFn files cache true now).cacheAfter
      = applyPending
          (purgePhase now cache (files.foldl (processFile hashFn now cache) {})).pending
          cache := by
  simp only [do_shipper_poll_cycle]
  rw [if_pos ⟨hne, trivial⟩]

/-- **C2, amended.** A watched file that is not found at read time is
treated by `_read_file_safely` as *stable* empty content
(`return b'', True`), so its MDT is **not** flagged unstable, and the
cycle purges every cached key of the snapshot as if the file were empty:
with a single watched file that has disappeared, every cached key yields
a PURGED event and the committed cache is empty. -/
theorem shipper_notfound_stable_and_purges (hashFn : String → String) (cache : Cache)
    (now : Int) (mdt : String) (hne : cache ≠ []) :
    read_file_safely FileOutcome.notFound = ([], true) ∧
    (do_shipper_poll_cycle hashFn [(mdt, FileOutcome.notFound)] cache true now).unstable = [] ∧
    (∀ e ∈ (do_shipper_poll_cycle hashFn [(mdt, FileOutcome.notFound)] cache true now).events,
        e.event_type = "PURGED") ∧
    (do_shipper_poll_cycle hashFn [(mdt, FileOutcome.notFound)] cache true now).events.length
      = cache.length ∧
    (do_shipper_poll_cycle hashFn [(mdt, FileOutcome.notFound)] cache true now).cacheAfter
      = [] := by
  have hst1 : List.foldl (processFile hashFn now cache) {} [(mdt, FileOutcome.notFound)]
      = ({ discovered := [mdt] } : PollSt) := rfl
  have hpp : purgePhase now cache ({ discovered := [mdt] } : PollSt)
      = (dkeys cache).foldl (purgeStep now cache) ({ discovered := [mdt] } : PollSt) := by
    unfold purgePhase
    congr 1
    simp
  obtain ⟨evs, hev, hlen, htype, hpend, hnone⟩ :=
    purgeFold_full now cache (dkeys cache) ({ discovered := [mdt] } : PollSt) rfl
      (fun k hk => dget?_isSome_of_mem_dkeys k cache hk)
  have hevents : (purgePhase now cache ({ discovered := [mdt] } : PollSt)).events = evs := by
    rw [hpp, hev]
    simp
  have hlen2 : evs.length = cache.length := by
    rw [hlen]
    simp [dkeys]
  have hevne : (purgePhase now cache
      (List.foldl (processFile hashFn now cache) {} [(mdt, FileOutcome.notFound)])).events
      ≠ [] := by
    rw [hst1, hevents]
    intro hc
    rw [hc] at hlen2
    exact hne (List.eq_nil_of_length_eq_zero hlen2.symm)
  refine ⟨rfl, ?_, ?_, ?_, ?_⟩
  · rw [cycle_unstable_eq, hst1]
    obtain ⟨_, hu, _, _, _⟩ := purgePhase_spec now cache ({ discovered := [mdt] } : PollSt)
    rw [hu]
  · intro e he
    rw [cycle_events_eq, hst1, hevents] at he
    exact htype e he
  · rw [cycle_events_eq, hst1, hevents, hlen2]
  · rw [cycle_commit_of_events_ne hashFn [(mdt, FileOutcome.notFound)] cache now hevne,
        hst1, hpp]
    refine applyPending_all_none_covers _ cache ?_ ?_
    · intro p hp
      rcases hnone p hp with h | h
      · exact absurd h (List.not_mem_nil p)
      · exact h
    · exact hpend

/-- Witness for `shipper_notfound_stable_and_purges` at a one-entry cache. -/
theorem shipper_notfound_stable_and_purges_witness :
    read_file_safely FileOutcome.notFound = ([], true) ∧
    (do_shipper_poll_cycle (fun s => s) [("m0", FileOutcome.notFound)]
        [(("m0", 1, 1), { hash := some "h", action := some "ARCHIVE", fid := some "0xa",
                          action_key := some "0xa:ARCHIVE" })] true 5).unstable = [] ∧
    (∀ e ∈ (do_shipper_poll_cycle (fun s => s) [("m0", FileOutcome.notFound)]
        [(("m0", 1, 1), { hash := some "h", action := some "ARCHIVE", fid := some "0xa",
                          action_key := some "0xa:ARCHIVE" })] true 5).events,
        e.event_type = "PURGED") ∧
    (do_shipper_poll_cycle (fun s => s) [("m0", FileOutcome.notFound)]
        [(("m0", 1, 1), { hash := some "h", action := some "ARCHIVE", fid := some "0xa",
                          action_key := some "0xa:ARCHIVE" })] true 5).events.length = 1 ∧
    (do_shipper_poll_cycle (fun s => s) [("m0", FileOutcome.notFound)]
        [(("m0", 1, 1), { hash := some "h", action := some "ARCHIVE", fid := some "0xa",
                          action_key := some "0xa:ARCHIVE" })] true 5).cacheAfter = [] :=
  shipper_notfound_stable_and_purges (fun s => s)
    [(("m0", 1, 1), { hash := some "h", action := some "ARCHIVE", fid := some "0xa",
                      action_key := some "0xa:ARCHIVE" })] 5 "m0" (by decide)

/-- **C2, counterexample.** The claim predicts that a file missing at
read time flags its MDT unstable and defers purges; on the code a
vanished file is stable empty content: the cycle below flags nothing
unstable and emits a PURGED event for the cached key. -/
theorem shipper_notfound_counterexample :
    (do_shipper_poll_cycle (fun s => s) [("m0", FileOutcome.notFound)]
        [(("m0", 1, 1), { hash := some "h", action := some "ARCHIVE", fid := some "0xa",
                          action_key := some "0xa:ARCHIVE" })] true 5).unstable = [] ∧
    ((do_shipper_poll_cycle (fun s => s) [("m0", FileOutcome.notFound)]
        [(("m0", 1, 1), { hash := some "h", action := some "ARCHIVE", fid := some "0xa",
                          action_key := some "0xa:ARCHIVE" })] true 5).events.map
      (fun e => e.event_type)) = ["PURGED"] := by
  decide

/-- **C6 (code bug).** A snapshot line that parses with a `fid` but no
`action` does not get skipped: `action_key = f"{data['fid']}:{data['action']}"`
raises `KeyError`, which the per-file `except` catches, so the *rest of
that file's lines are dropped for the cycle*.  Below, a file whose first
line lacks `action` ships nothing at all and records nothing in
`keys_seen`, while the same second line alone ships one NEW event;
`processLine` on the offending line is the uncaught exception. -/
theorem missing_action_aborts_file :
    (do_shipper_poll_cycle (fun s => s)
        [("m0", FileOutcome.ok ["idx=[1/1] fid=[0xa] status=STARTED",
                                "idx=[2/2] fid=[0xb] action=ARCHIVE status=STARTED"] false)]
        [] true 5).events = [] ∧
    (do_shipper_poll_cycle (fun s => s)
        [("m0", FileOutcome.ok ["idx=[1/1] fid=[0xa] status=STARTED",
                                "idx=[2/2] fid=[0xb] action=ARCHIVE status=STARTED"] false)]
        [] true 5).seen = [] ∧
    (do_shipper_poll_cycle (fun s => s)
        [("m0", FileOutcome.ok ["idx=[2/2] fid=[0xb] action=ARCHIVE status=STARTED"] false)]
        [] true 5).events.length = 1 ∧
    processLine (fun s => s) "m0" 5 [] {} "idx=[1/1] fid=[0xa] status=STARTED"
      = Except.error () := by
  refine ⟨by decide, by decide, by decide, rfl⟩

theorem processLine_no_change (hashFn : String → String) (mdt : String) (now : Int)
    (cache : Cache) (st : PollSt) (l : String)
    (hm : ∀ d : ActionData, parse_action_line (pyStripWsStr l) = some d →
        (dget? (mdt, d.cat_idx, d.rec_idx) cache).bind (fun e => e.hash)
          = some (hashFn (pyStripWsStr l))) :
    (∃ st', processLine hashFn mdt now cache st l = Except.ok st' ∧
        st'.events = st.events ∧ st'.pending = st.pending) ∨
    processLine hashFn mdt now cache st l = Except.error () := by
  simp only [processLine]
  split
  · exact Or.inl ⟨st, rfl, rfl, rfl⟩
  · split
    · exact Or.inl ⟨st, rfl, rfl, rfl⟩
    · rename_i data hparse
      split
      · exact Or.inl ⟨st, rfl, rfl, rfl⟩
      · split
        · exact Or.inr rfl
        · split
          · rename_i hcond
            exact absurd (hm data hparse) hcond
          · exact Or.inl ⟨_, rfl, rfl, rfl⟩

theorem processLines_no_change (hashFn : String → String) (mdt : String) (now : Int)
    (cache : Cache) : ∀ (ls : List String) (st : PollSt),
    (∀ l ∈ ls, ∀ d : ActionData, parse_action_line (pyStripWsStr l) = some d →
        (dget? (mdt, d.cat_idx, d.rec_idx) cache).bind (fun e => e.hash)
          = some (hashFn (pyStripWsStr l))) →
    (processLines hashFn mdt now cache st ls).events = st.events ∧
    (processLines hashFn mdt now cache st ls).pending = st.pending := by
  intro ls
  induction ls with
  | nil => intro st _; exact ⟨rfl, rfl⟩
  | cons l ls ih =>
    intro st hm
    unfold processLines
    rcases processLine_no_change hashFn mdt now cache st l
        (fun d hd => hm l (by simp) d hd) with ⟨st', hok, hev, hpen⟩ | herr
    · rw [hok]
      obtain ⟨hev2, hpen2⟩ := ih st' (fun l' hl' => hm l' (by simp [hl']))
      exact ⟨hev2.trans hev, hpen2.trans hpen⟩
    · rw [herr]
      exact ⟨rfl, rfl⟩

theorem processFile_no_change (hashFn : String → String) (now : Int) (cache : Cache)
    (st : PollSt) (file : String × FileOutcome)
    (hm : ∀ l ∈ (read_file_safely file.2).1, ∀ d : ActionData,
        parse_action_line (pyStripWsStr l) = some d →
          (dget? (file.1, d.cat_idx, d.rec_idx) cache).bind (fun e => e.hash)
            = some (hashFn (pyStripWsStr l))) :
    (processFile hashFn now cache st file).events = st.events ∧
    (processFile hashFn now cache st file).pending = st.pending := by
  unfold processFile
  obtain ⟨hev, hpen⟩ := processLines_no_change hashFn file.1 now cache
    (read_file_safely file.2).1
    (if (read_file_safely file.2).2
     then { st with discovered := st.discovered ++ [file.1] }
     else { st with discovered := st.discovered ++ [file.1],
                    unstable := st.unstable ++ [file.1] })
    hm
  cases hrd : (read_file_safely file.2).2 with
  | true =>
    rw [hrd] at hev hpen
    simp only [if_true] at hev hpen
    simp only [hrd, if_true]
    exact ⟨hev, hpen⟩
  | false =>
    rw [hrd] at hev hpen
    simp only [Bool.false_eq_true, if_false] at hev hpen
    simp only [hrd, Bool.false_eq_true, if_false]
    exact ⟨hev, hpen⟩

theorem filesFold_no_change (hashFn : String → String) (now : Int) (cache : Cache)
    (files : List (String × FileOutcome))
    (hm : ∀ mdt o, (mdt, o) ∈ files → ∀ l ∈ (read_file_safely o).1,
        ∀ d : ActionData, parse_action_line (pyStripWsStr l) = some d →
          (dget? (mdt, d.cat_idx, d.rec_idx) cache).bind (fun e => e.hash)
            = some (hashFn (pyStripWsStr l))) :
    ∀ st : PollSt,
      (files.foldl (processFile hashFn now cache) st).events = st.events ∧
      (files.foldl (processFile hashFn now cache) st).pending = st.pending := by
  induction files with
  | nil => intro st; exact ⟨rfl, rfl⟩
  | cons f fs ih =>
    intro st
    simp only [List.foldl_cons]
    obtain ⟨hev1, hpen1⟩ := processFile_no_change hashFn now cache st f
      (fun l hl d hd => hm f.1 f.2 (by simp) l hl d hd)
    obtain ⟨hev2, hpen2⟩ := ih (fun mdt o hmo => hm mdt o (by simp [hmo]))
      (processFile hashFn now cache st f)
    exact ⟨hev2.trans hev1, hpen2.trans hpen1⟩

/-- **C7.** Running a poll cycle is idempotent over an unchanged snapshot:
if every file is read stably, every line that parses has its key cached
with a hash equal to the current line's hash, and every cached key is
among the keys seen this cycle, then the cycle produces an empty
`events_to_ship` list, appends zero stream entries, and leaves the cache
untouched. -/
theorem run_once_idempotent (hashFn : String → String)
    (files : List (String × FileOutcome)) (cache : Cache) (appendOk : Bool) (now : Int)
    (_hstable : ∀ p ∈ files, ∃ ls, p.2 = FileOutcome.ok ls false)
    (hmatch : ∀ mdt o, (mdt, o) ∈ files → ∀ l ∈ (read_file_safely o).1,
        ∀ d : ActionData, parse_action_line (pyStripWsStr l) = some d →
          (dget? (mdt, d.cat_idx, d.rec_idx) cache).bind (fun e => e.hash)
            = some (hashFn (pyStripWsStr l)))
    (hkeys : ∀ k ∈ dkeys cache,
        k ∈ (do_shipper_poll_cycle hashFn files cache appendOk now).seen) :
    (do_shipper_poll_cycle hashFn files cache appendOk now).events = [] ∧
    (do_shipper_poll_cycle hashFn files cache appendOk now).appended = [] ∧
    (do_shipper_poll_cycle hashFn files cache appendOk now).cacheAfter = cache := by
  obtain ⟨hev1, _⟩ := filesFold_no_change hashFn now cache files hmatch {}
  have hseen : ∀ k ∈ dkeys cache,
      k ∈ (files.foldl (processFile hashFn now cache) {}).seen := by
    intro k hk
    have := hkeys k hk
    rw [cycle_seen_eq] at this
    obtain ⟨hs, _, _, _, _⟩ :=
      purgePhase_spec now cache (files.foldl (processFile hashFn now cache) {})
    rw [hs] at this
    exact this
  have hfilter : ((dkeys cache).filter
      (fun k => decide (¬ k ∈ (files.foldl (processFile hashFn now cache) {}).seen))) = [] := by
    rw [List.filter_eq_nil_iff]
    intro k hk
    simp [hseen k hk]
  have hpp : purgePhase now cache (files.foldl (processFile hashFn now cache) {})
      = files.foldl (processFile hashFn now cache) {} := by
    unfold purgePhase
    rw [hfilter]
    rfl
  have hev : (purgePhase now cache (files.foldl (processFile hashFn now cache) {})).events
      = [] := by
    rw [hpp, hev1]
  refine ⟨?_, ?_, ?_⟩
  · rw [cycle_events_eq, hev]
  · rcases cycle_commit_cases hashFn files cache appendOk now with hcc | hcc
    · exact absurd (by rw [cycle_events_eq, hev]) hcc.2.2.1
    · exact hcc.2.1
  · rcases cycle_commit_cases hashFn files cache appendOk now with hcc | hcc
    · exact absurd (by rw [cycle_events_eq, hev]) hcc.2.2.1
    · exact hcc.2.2

/-- Witness for `run_once_idempotent`: a cache matching an unchanged
one-line snapshot (the digest function is the identity on the line). -/
theorem run_once_idempotent_witness :
    (do_shipper_poll_cycle (fun s => s)
        [("m0", FileOutcome.ok ["idx=[1/1] action=ARCHIVE fid=[0xa] status=STARTED"] false)]
        [(("m0", 1, 1), { hash := some "idx=[1/1] action=ARCHIVE fid=[0xa] status=STARTED",
                          action := some "ARCHIVE", fid := some "0xa",
                          action_key := some "0xa:ARCHIVE" })] true 5).events = [] ∧
    (do_shipper_poll_cycle (fun s => s)
        [("m0", FileOutcome.ok ["idx=[1/1] action=ARCHIVE fid=[0xa] status=STARTED"] false)]
        [(("m0", 1, 1), { hash := some "idx=[1/1] action=ARCHIVE fid=[0xa] status=STARTED",
                          action := some "ARCHIVE", fid := some "0xa",
                          action_key := some "0xa:ARCHIVE" })] true 5).appended = [] ∧
    (do_shipper_poll_cycle (fun s => s)
        [("m0", FileOutcome.ok ["idx=[1/1] action=ARCHIVE fid=[0xa] status=STARTED"] false)]
        [(("m0", 1, 1), { hash := some "idx=[1/1] action=ARCHIVE fid=[0xa] status=STARTED",
                          action := some "ARCHIVE", fid := some "0xa",
                          action_key := some "0xa:ARCHIVE" })] true 5).cacheAfter
      = [(("m0", 1, 1), { hash := some "idx=[1/1] action=ARCHIVE fid=[0xa] status=STARTED",
                          action := some "ARCHIVE", fid := some "0xa",
                          action_key := some "0xa:ARCHIVE" })] :=
  run_once_idempotent (fun s => s)
    [("m0", FileOutcome.ok ["idx=[1/1] action=ARCHIVE fid=[0xa] status=STARTED"] false)]
    [(("m0", 1, 1), { hash := some "idx=[1/1] action=ARCHIVE fid=[0xa] status=STARTED",
                      action := some "ARCHIVE", fid := some "0xa",
                      action_key := some "0xa:ARCHIVE" })] true 5
    (by
      intro p hp
      simp only [List.mem_singleton] at hp
      exact ⟨_, by rw [hp]⟩)
    (by
      intro mdt o hmo l hl d hd
      simp only [List.mem_singleton, Prod.mk.injEq] at hmo
      obtain ⟨rfl, rfl⟩ := hmo
      simp only [read_file_safely, List.mem_singleton] at hl
      subst hl
      rw [show parse_action_line
            (pyStripWsStr "idx=[1/1] action=ARCHIVE fid=[0xa] status=STARTED")
          = some ⟨1, 1, some "ARCHIVE", some "0xa", some "STARTED"⟩ from by decide] at hd
      injection hd with hd
      subst hd
      decide)
    (by decide)

/-! ### The maintenance replay (`shipper._replay_stream_and_get_state`)

A stream entry is its Redis ID string together with the decoded `data`
payload; `none` models a missing `data` field or an undecodable payload
(both are logged and skipped).  The batched `xread` loop visits every
entry in stream order, so it is modelled as a single fold. -/

/-- The decoded JSON payload of one stream entry, restricted to the
fields the replay reads (`action_key`, `status`; `event_type` is carried
to state the claims but is *not* consulted by the replay). -/
structure RPayload where
  action_key : Option String := none
  status : Option String := none
  event_type : Option String := none
deriving Repr, DecidableEq

/-- One entry of a per-MDT Redis stream. -/
structure StreamEntry where
  id : String
  data : Option RPayload := none
deriving Repr, DecidableEq

/-- The body of the replay loop for one entry: `last_id` always advances;
a missing payload or a falsy `action_key` is skipped; then
`status == "PURGED"` pops the key and anything else stores the entry ID. -/
def replayStep (st : List (String × String) × String) (e : StreamEntry) :
    List (String × String) × String :=
  let live := st.1
  match e.data with
  | none => (live, e.id)
  | some p =>
    match p.action_key with
    | none => (live, e.id)
    | some ak =>
      if ak = "" then (live, e.id)
      else if p.status = some "PURGED" then (dremove ak live, e.id)
      else (dinsert ak e.id live, e.id)

/-- `shipper._replay_stream_and_get_state`: fold the whole stream,
returning `live_actions` and the final cursor (`'0-0'` for an empty
stream). -/
def replay_stream_and_get_state (entries : List StreamEntry) :
    List (String × String) × String :=
  entries.foldl replayStep ([], "0-0")

/-- Does this entry carry a decodable payload whose `action_key` is `k`? -/
def touchesKey (k : String) (e : StreamEntry) : Bool :=
  match e.data with
  | some p => p.action_key = some k
  | none => false

theorem replayStep_snd (st : List (String × String) × String) (e : StreamEntry) :
    (replayStep st e).2 = e.id := by
  simp only [replayStep]
  split
  · rfl
  · split
    · rfl
    · split
      · rfl
      · split <;> rfl

theorem replayStep_not_touch (st : List (String × String) × String) (e : StreamEntry)
    (k : String) (h : touchesKey k e = false) :
    dget? k (replayStep st e).1 = dget? k st.1 := by
  simp only [replayStep]
  split
  · rfl
  · rename_i p hd
    have h' : p.action_key ≠ some k := by
      unfold touchesKey at h
      rw [hd] at h
      simpa using h
    split
    · rfl
    · rename_i ak ha
      rw [ha] at h'
      have hne : k ≠ ak := fun hc => h' (by rw [hc])
      split
      · rfl
      · split
        · exact dget?_dremove_ne ak k st.1 hne
        · exact dget?_dinsert_ne ak k e.id st.1 hne

theorem replayStep_touch (st : List (String × String) × String) (e : StreamEntry)
    (k : String) (p : RPayload) (hk : k ≠ "") (hd : e.data = some p)
    (ha : p.action_key = some k) :
    dget? k (replayStep st e).1
      = if p.status = some "PURGED" then none else some e.id := by
  simp only [replayStep, hd, ha]
  rw [if_neg hk]
  by_cases hs : p.status = some "PURGED"
  · simp only [hs, if_pos rfl]
    exact dget?_dremove_self k st.1
  · simp only [if_neg hs]
    exact dget?_dinsert_self k e.id st.1

theorem replayFold_lookup (k : String) (hk : k ≠ "") :
    ∀ (entries : List StreamEntry) (live : List (String × String)) (cur : String),
      dget? k (entries.foldl replayStep (live, cur)).1
        = (match (entries.filter (touchesKey k)).getLast? with
           | none => dget? k live
           | some e =>
             if (e.data.bind (fun p => p.status)) = some "PURGED" then none
             else some e.id) := by
  intro entries
  induction entries with
  | nil => intro live cur; rfl
  | cons e es ih =>
    intro live cur
    simp only [List.foldl_cons]
    cases ht : touchesKey k e with
    | false =>
      have hfilter : (e :: es).filter (touchesKey k) = es.filter (touchesKey k) := by
        simp [List.filter_cons, ht]
      rw [hfilter]
      have hstep := replayStep_not_touch (live, cur) e k ht
      rcases hrs : replayStep (live, cur) e with ⟨live', cur'⟩
      rw [hrs] at hstep
      rw [ih live' cur']
      cases hl : (es.filter (touchesKey k)).getLast? with
      | none => simpa using hstep
      | some x => rfl
    | true =>
      obtain ⟨p, hd, ha⟩ : ∃ p, e.data = some p ∧ p.action_key = some k := by
        unfold touchesKey at ht
        cases hdd : e.data with
        | none => rw [hdd] at ht; exact absurd ht (by simp)
        | some p =>
          rw [hdd] at ht
          simp only [decide_eq_true_eq] at ht
          exact ⟨p, rfl, ht⟩
      have hfilter : (e :: es).filter (touchesKey k)
          = e :: es.filter (touchesKey k) := by
        simp [List.filter_cons, ht]
      rw [hfilter]
      have hstep := replayStep_touch (live, cur) e k p hk hd ha
      rcases hrs : replayStep (live, cur) e with ⟨live', cur'⟩
      rw [hrs] at hstep
      rw [ih live' cur']
      cases hl : (es.filter (touchesKey k)).getLast? with
      | none =>
        have hfe : es.filter (touchesKey k) = [] := by
          cases hfe2 : es.filter (touchesKey k) with
          | nil => rfl
          | cons a l =>
            rw [hfe2] at hl
            simp at hl
        rw [hfe]
        simp [hd, hstep]
      | some x =>
        have : (e :: es.filter (touchesKey k)).getLast? = some x := by
          cases hfe : es.filter (touchesKey k) with
          | nil => rw [hfe] at hl; simp at hl
          | cons a l =>
            rw [hfe] at hl
            rw [List.getLast?_cons_cons]
            exact hl
        rw [this]

theorem replayFold_cursor :
    ∀ (entries : List StreamEntry) (live : List (String × String)) (cur : String),
      (entries.foldl replayStep (live, cur)).2
        = (entries.getLast?.map (fun e => e.id)).getD cur := by
  intro entries
  induction entries with
  | nil => intro live cur; rfl
  | cons e es ih =>
    intro live cur
    simp only [List.foldl_cons]
    rcases hrs : replayStep (live, cur) e with ⟨live', cur'⟩
    have hcur' : cur' = e.id := by
      have := replayStep_snd (live, cur) e
      rw [hrs] at this
      exact this
    rw [ih live' cur', hcur']
    cases es with
    | nil => rfl
    | cons a l =>
      rw [List.getLast?_cons_cons]
      obtain ⟨x, hx⟩ := Option.isSome_iff_exists.mp
        (List.getLast?_isSome.mpr (by simp : (a :: l) ≠ []))
      rw [hx]
      rfl

/-- **C5, counterexample.** The replay branches on the `status` field,
not on `event_type`: an entry with `event_type = "NEW"` but
`status = "PURGED"` deletes its key instead of setting it, and an entry
with `event_type = "PURGED"` but another `status` sets its key. -/
theorem replay_event_type_counterexample :
    (replay_stream_and_get_state
        [{ id := "1-1", data := some { action_key := some "k", status := some "PURGED",
                                       event_type := some "NEW" } }]).1 = [] ∧
    (replay_stream_and_get_state
        [{ id := "1-1", data := some { action_key := some "k", status := some "DONE",
                                       event_type := some "PURGED" } }]).1
      = [("k", "1-1")] := by
  decide

/-- **C5, amended.** The maintenance replay folds entries in stream order
keyed on the `status` field: for every key `k` (the empty `action_key` is
always skipped), the live entry for `k` after the replay is determined by
the last entry whose decodable payload carries `action_key = k` — absent
when that entry's `status` is `"PURGED"`, and equal to that entry's
stream ID otherwise; entries with an undecodable payload or without an
`action_key` never affect the map; and the read cursor still advances to
the ID of the last entry, malformed or not. -/
theorem replay_folds_by_status (entries : List StreamEntry) (k : String) (hk : k ≠ "") :
    dget? k (replay_stream_and_get_state entries).1
      = ((entries.filter (touchesKey k)).getLast?.bind
          (fun e => if (e.data.bind (fun p => p.status)) = some "PURGED" then none
                    else some e.id)) ∧
    (replay_stream_and_get_state entries).2
      = ((entries.getLast?.map (fun e => e.id)).getD "0-0") := by
  constructor
  · unfold replay_stream_and_get_state
    rw [replayFold_lookup k hk entries [] "0-0"]
    cases hl : (entries.filter (touchesKey k)).getLast? with
    | none => rfl
    | some e => rfl
  · exact replayFold_cursor entries [] "0-0"

/-- A concrete three-entry stream: a NEW entry, a malformed entry, then a
maintenance PURGED entry for the same action key. -/
def replayDemoStream : List StreamEntry :=
  [{ id := "1-1", data := some { action_key := some "0xa:ARCHIVE",
                                 status := some "STARTED", event_type := some "NEW" } },
   { id := "2-1", data := none },
   { id := "3-1", data := some { action_key := some "0xa:ARCHIVE",
                                 status := some "PURGED", event_type := some "PURGED" } }]

/-- Witness for `replay_folds_by_status` on `replayDemoStream`. -/
theorem replay_folds_by_status_witness :
    dget? "0xa:ARCHIVE" (replay_stream_and_get_state replayDemoStream).1
      = ((replayDemoStream.filter (touchesKey "0xa:ARCHIVE")).getLast?.bind
          (fun e => if (e.data.bind (fun p => p.status)) = some "PURGED" then none
                    else some e.id)) ∧
    (replay_stream_and_get_state replayDemoStream).2
      = ((replayDemoStream.getLast?.map (fun e => e.id)).getD "0-0") :=
  replay_folds_by_status replayDemoStream "0xa:ARCHIVE" (by decide)

/-! ### Maintenance trimming (`shipper._trim_stream` / `run_maintenance_cycle`)

Redis `XTRIM MINID` deletes only entries whose ID is strictly below the
given threshold, removing from the front of the (ID-ordered) stream; the
`LIMIT` option bounds how many entries one call removes, and approximate
mode may remove fewer (stopping before the boundary).  One call is
therefore modelled as removing up to `limit` leading entries whose parsed
ID is below the threshold; in no mode can a call remove an entry at or
above the threshold, so the safety theorem covers both exact and
approximate trimming. -/

/-- `shipper._parse_stream_id`: split on the first `-`, parse both halves
with `int()`, and fall back to `(0, 0)` on any error. -/
def parse_stream_id (s : String) : Int × Int :=
  match splitCharMax '-' 1 s.data with
  | [ms, seq] =>
    match pyInt? ms, pyInt? seq with
    | some a, some b => (a, b)
    | _, _ => (0, 0)
  | _ => (0, 0)

/-- Strict order on parsed stream IDs (lexicographic `ms-seq`). -/
def idPairLt (p q : Int × Int) : Bool :=
  p.1 < q.1 || (p.1 = q.1 && p.2 < q.2)

/-- `valid_ids`: the live-action stream IDs whose parse is not `(0, 0)`. -/
def validLiveIds (live : List (String × String)) : List String :=
  (live.map (fun kv => kv.2)).filter (fun s => decide (parse_stream_id s ≠ (0, 0)))

/-- Python `min(valid_ids, key=_parse_stream_id)` (first minimum wins). -/
def oldestLiveId (live : List (String × String)) : Option String :=
  match validLiveIds live with
  | [] => none
  | x :: xs =>
    some (xs.foldl (fun best y =>
      if idPairLt (parse_stream_id y) (parse_stream_id best) then y else best) x)

/-- One `XTRIM MINID ~ LIMIT` call: remove up to `limit` leading entries
whose parsed ID is strictly below `minid`; returns the deleted count and
the remaining stream. -/
def xtrimMinidOnce (minid : Int × Int) : Nat → List StreamEntry → Nat × List StreamEntry
  | _, [] => (0, [])
  | 0, s => (0, s)
  | limit + 1, e :: rest =>
    if idPairLt (parse_stream_id e.id) minid then
      let r := xtrimMinidOnce minid limit rest
      (r.1 + 1, r.2)
    else (0, e :: rest)

/-- The chunked trim loop of `_trim_stream`: re-issue `XTRIM` until a
call deletes zero entries (fuel bounds the iterations; the callers pass
enough fuel for the loop to reach its fixpoint). -/
def trimLoop (minid : Int × Int) (chunk : Nat) : Nat → List StreamEntry → List StreamEntry
  | 0, s => s
  | fuel + 1, s =>
    let r := xtrimMinidOnce minid chunk s
    if r.1 = 0 then r.2 else trimLoop minid chunk fuel r.2

/-- `shipper._trim_stream`: compute `valid_ids` and the oldest live ID,
skip when there is none, else trim below it in chunks. -/
def trim_stream (approximate : Bool) (chunk : Nat) (live : List (String × String))
    (stream : List StreamEntry) : List StreamEntry :=
  match oldestLiveId live with
  | none => stream
  | some oldest => trimLoop (parse_stream_id oldest) chunk (stream.length + 1) stream

/-- The trim decision of `run_maintenance_cycle` after reconciliation:
an empty live map clears the whole stream (`XTRIM MAXLEN 0` in chunks),
otherwise `_trim_stream` runs. -/
def run_maintenance_trim (approximate : Bool) (chunk : Nat)
    (live : List (String × String)) (stream : List StreamEntry) : List StreamEntry :=
  if live = [] then []
  else trim_stream approximate chunk live stream

theorem xtrimMinidOnce_mem (minid : Int × Int) (e : StreamEntry)
    (he : idPairLt (parse_stream_id e.id) minid = false) :
    ∀ (limit : Nat) (s : List StreamEntry), e ∈ s →
      e ∈ (xtrimMinidOnce minid limit s).2 := by
  intro limit
  induction limit with
  | zero =>
    intro s hs
    cases s with
    | nil => exact absurd hs (List.not_mem_nil e)
    | cons a rest => exact hs
  | succ n ih =>
    intro s hs
    cases s with
    | nil => exact absurd hs (List.not_mem_nil e)
    | cons a rest =>
      unfold xtrimMinidOnce
      split
      · rename_i ha
        rcases List.mem_cons.mp hs with h | h
        · subst h
          rw [he] at ha
          exact absurd ha (by simp)
        · exact ih rest h
      · exact hs

theorem trimLoop_mem (minid : Int × Int) (chunk : Nat) (e : StreamEntry)
    (he : idPairLt (parse_stream_id e.id) minid = false) :
    ∀ (fuel : Nat) (s : List StreamEntry), e ∈ s → e ∈ trimLoop minid chunk fuel s := by
  intro fuel
  induction fuel with
  | zero => intro s hs; exact hs
  | succ n ih =>
    intro s hs
    show e ∈ (if (xtrimMinidOnce minid chunk s).1 = 0
              then (xtrimMinidOnce minid chunk s).2
              else trimLoop minid chunk n (xtrimMinidOnce minid chunk s).2)
    split
    · exact xtrimMinidOnce_mem minid e he chunk s hs
    · exact ih _ (xtrimMinidOnce_mem minid e he chunk s hs)

/-- **C1.** For every MDT whose reconciled `live_action_keys` map is
non-empty, maintenance trimming deletes only stream entries whose ID is
strictly smaller (as a parsed `ms-seq` pair) than the oldest valid
stream ID among the live actions' values: every entry whose ID is not
below that oldest live-action ID survives the trim, in both exact and
approximate modes (when no valid ID exists the hypothesis makes the
survival unconditional, and indeed the code skips the trim). -/
theorem maintenance_trim_preserves_live (approximate : Bool) (chunk : Nat)
    (live : List (String × String)) (stream : List StreamEntry) (e : StreamEntry)
    (hlive : live ≠ []) (he : e ∈ stream)
    (hsafe : ∀ oldest, oldestLiveId live = some oldest →
        idPairLt (parse_stream_id e.id) (parse_stream_id oldest) = false) :
    e ∈ run_maintenance_trim approximate chunk live stream := by
  unfold run_maintenance_trim
  rw [if_neg hlive]
  unfold trim_stream
  cases hold : oldestLiveId live with
  | none => exact he
  | some oldest =>
    exact trimLoop_mem (parse_stream_id oldest) chunk e (hsafe oldest hold)
      (stream.length + 1) stream he

/-- Witness for `maintenance_trim_preserves_live`: one live action whose
ID `5-1` protects the entry at `5-1` while the entry at `4-9` is below
the boundary. -/
theorem maintenance_trim_preserves_live_witness :
    ({ id := "5-1", data := none } : StreamEntry) ∈
      run_maintenance_trim true 1000 [("0xa:ARCHIVE", "5-1")]
        [{ id := "4-9", data := none }, { id := "5-1", data := none }] :=
  maintenance_trim_preserves_live true 1000 [("0xa:ARCHIVE", "5-1")]
    [{ id := "4-9", data := none }, { id := "5-1", data := none }]
    { id := "5-1", data := none } (by decide) (by decide)
    (by
      intro oldest hold
      rw [show oldestLiveId [("0xa:ARCHIVE", "5-1")] = some "5-1" from by decide] at hold
      injection hold with hold
      subst hold
      decide)

/-! ### The stats collector (`stats.StatsGenerator`)

`_process_one_event` builds the tuple key with bare dictionary accesses
`event_data['mdt']`, `event_data['cat_idx']`, `event_data['rec_idx']`
(in that order) and then reads `event_data['event_type']`; a missing key
raises `KeyError`, modelled as `Except.error` naming the missing key.
`run` catches `KeyError`/`TypeError` around each event, logs and skips
it, leaving `live_actions` unchanged. -/

/-- A decoded stream event as the stats collector sees it; `none` models
an absent JSON field. -/
structure StatsEvent where
  mdt : Option String := none
  cat_idx : Option Int := none
  rec_idx : Option Int := none
  event_type : Option String := none
  action : Option String := none
  status : Option String := none
  action_key : Option String := none
  source : Option String := none
  timestamp : Option Int := none
deriving Repr, DecidableEq

/-- A value of the stats `live_actions` map. -/
structure LiveInfo where
  id : String
  mdt : Option String := none
  action : Option String := none
  status : Option String := none
deriving Repr, DecidableEq

/-- `(mdt, cat_idx, rec_idx)` as used by the stats collector. -/
abbrev StatsKey := String × Int × Int

/-- `StatsGenerator._process_one_event`: raises `KeyError` (modelled as
`Except.error` with the missing field's name) when `mdt`, `cat_idx`,
`rec_idx` or `event_type` is absent, in the evaluation order of the
source; otherwise NEW/UPDATE store and PURGED pops. -/
def process_one_event (live : List (StatsKey × LiveInfo)) (eventId : String)
    (d : StatsEvent) : Except String (List (StatsKey × LiveInfo)) :=
  match d.mdt with
  | none => .error "mdt"
  | some m =>
    match d.cat_idx with
    | none => .error "cat_idx"
    | some c =>
      match d.rec_idx with
      | none => .error "rec_idx"
      | some r =>
        match d.event_type with
        | none => .error "event_type"
        | some t =>
          if t = "NEW" ∨ t = "UPDATE" then
            .ok (dinsert (m, c, r)
              { id := eventId, mdt := d.mdt, action := d.action, status := d.status } live)
          else if t = "PURGED" then .ok (dremove (m, c, r) live)
          else .ok live

/-- The per-event body of `StatsGenerator.run`: process the event, and on
`KeyError`/`TypeError` log, skip, and keep `live_actions` unchanged. -/
def statsRunStep (live : List (StatsKey × LiveInfo)) (ev : String × StatsEvent) :
    List (StatsKey × LiveInfo) :=
  match process_one_event live ev.1 ev.2 with
  | .ok live' => live'
  | .error _ => live

/-- The full replay of `StatsGenerator.run` over the historical events. -/
def statsReplay (events : List (String × StatsEvent)) : List (StatsKey × LiveInfo) :=
  events.foldl statsRunStep []

/-- The maintenance-injected corrective PURGED payload built by
`shipper._validate_stream_consistency`: only
`{event_type, mdt, action_key, status, timestamp, source}` — no
`cat_idx`/`rec_idx`. -/
def maintenancePurgedEvent (mdt action_key : String) (now : Int) : StatsEvent :=
  { event_type := some "PURGED", mdt := some mdt, action_key := some action_key,
    status := some "PURGED", timestamp := some now, source := some "maintenance" }

/-- **C9.** Any stream event whose decoded payload lacks `cat_idx` or
`rec_idx` makes `_process_one_event` raise `KeyError`; `run` catches it,
logs and skips the event, leaving `live_actions` unchanged — in
particular every maintenance-injected PURGED event, which carries only
`{event_type, mdt, action_key, status, timestamp, source}`, never
removes an action from the stats live set. -/
theorem stats_skips_events_without_idx (live : List (StatsKey × LiveInfo))
    (eventId : String) (d : StatsEvent)
    (hmiss : d.cat_idx = none ∨ d.rec_idx = none) :
    (∃ msg, process_one_event live eventId d = Except.error msg) ∧
    statsRunStep live (eventId, d) = live ∧
    (∀ mdt ak now, statsRunStep live (eventId, maintenancePurgedEvent mdt ak now) = live) := by
  have herr : ∃ msg, process_one_event live eventId d = Except.error msg := by
    unfold process_one_event
    cases hm : d.mdt with
    | none => exact ⟨"mdt", rfl⟩
    | some m =>
      rcases hmiss with hmiss | hmiss
      · rw [hmiss]
        exact ⟨"cat_idx", rfl⟩
      · cases hc : d.cat_idx with
        | none => exact ⟨"cat_idx", rfl⟩
        | some c =>
          rw [hmiss]
          exact ⟨"rec_idx", rfl⟩
  obtain ⟨msg, hmsg⟩ := herr
  refine ⟨⟨msg, hmsg⟩, ?_, ?_⟩
  · unfold statsRunStep
    rw [hmsg]
  · intro mdt ak now
    unfold statsRunStep
    rfl

/-- Witness for `stats_skips_events_without_idx` at a concrete
maintenance PURGED payload and a one-element live map. -/
theorem stats_skips_events_without_idx_witness :
    (∃ msg, process_one_event [(("m0", 1, 1), { id := "1-1" })] "7-1"
        (maintenancePurgedEvent "m0" "0xa:ARCHIVE" 9) = Except.error msg) ∧
    statsRunStep [(("m0", 1, 1), { id := "1-1" })]
        ("7-1", maintenancePurgedEvent "m0" "0xa:ARCHIVE" 9)
      = [(("m0", 1, 1), { id := "1-1" })] ∧
    (∀ mdt ak now,
      statsRunStep [(("m0", 1, 1), { id := "1-1" })]
          ("7-1", maintenancePurgedEvent mdt ak now)
        = [(("m0", 1, 1), { id := "1-1" })]) :=
  stats_skips_events_without_idx [(("m0", 1, 1), { id := "1-1" })] "7-1"
    (maintenancePurgedEvent "m0" "0xa:ARCHIVE" 9) (Or.inl rfl)

/-! ### The index-pair contract of the parser (claim C8) -/

/-- **C8, counterexample.** Python `int()` accepts a sign, so the parser
accepts `idx=[-1/2]` and returns a record with a *negative* `cat_idx`
instead of rejecting the line as unrecognized. -/
theorem parse_negative_idx_counterexample :
    parse_action_line "idx=[-1/2]"
      = some { cat_idx := -1, rec_idx := 2, action := none, fid := none,
               status := none } := by
  decide

theorem scanFieldsAux_nil : ∀ fuel, scanFieldsAux fuel [] = [] := by
  intro fuel
  cases fuel <;> rfl

theorem matchFieldAt_idx_bracket (body : List Char) (hnb : ¬ ']' ∈ body) :
    matchFieldAt ('i' :: 'd' :: 'x' :: '=' :: '[' :: (body ++ [']']))
      = some ((['i', 'd', 'x'], '[' :: (body ++ [']'])), []) := by
  have htw : (('i' :: 'd' :: 'x' :: '=' :: '[' :: (body ++ [']'])).takeWhile isWordChar)
      = ['i', 'd', 'x'] := rfl
  have hdw : (('i' :: 'd' :: 'x' :: '=' :: '[' :: (body ++ [']'])).dropWhile isWordChar)
      = '=' :: '[' :: (body ++ [']']) := rfl
  have hmem : (']' : Char) ∈ body ++ [']'] := List.mem_append.mpr (Or.inr (by simp))
  have htake : (body ++ [']']).takeWhile (fun d => !(d == ']')) = body := by
    have : body ++ [']'] = body ++ ']' :: [] := rfl
    rw [this]
    refine takeWhile_append_of_false _ body [] ']' ?_ (by decide)
    intro c hc
    have hcne : c ≠ ']' := fun h => hnb (h ▸ hc)
    simp [hcne]
  have hdrop : (body ++ [']']).dropWhile (fun d => !(d == ']')) = [']'] := by
    have : body ++ [']'] = body ++ ']' :: [] := rfl
    rw [this]
    refine dropWhile_append_of_false _ body [] ']' ?_ (by decide)
    intro c hc
    have hcne : c ≠ ']' := fun h => hnb (h ▸ hc)
    simp [hcne]
  simp only [matchFieldAt, htw, hdw]
  rw [if_neg (by simp : ¬ (['i', 'd', 'x'] : List Char) = [])]
  rw [if_pos ⟨trivial, hmem⟩]
  rw [htake, hdrop]
  rfl

theorem scanFields_idx_bracket (body : List Char) (hnb : ¬ ']' ∈ body) :
    scanFields ('i' :: 'd' :: 'x' :: '=' :: '[' :: (body ++ [']']))
      = [(['i', 'd', 'x'], '[' :: (body ++ [']']))] := by
  unfold scanFields
  have hlen : ('i' :: 'd' :: 'x' :: '=' :: '[' :: (body ++ [']'])).length = body.length + 6 := by
    simp
  rw [hlen]
  rw [show scanFieldsAux ((body.length + 6) + 1)
        ('i' :: 'd' :: 'x' :: '=' :: '[' :: (body ++ [']']))
      = (match matchFieldAt ('i' :: 'd' :: 'x' :: '=' :: '[' :: (body ++ [']'])) with
         | some (kv, rest) => kv :: scanFieldsAux (body.length + 6) rest
         | none => scanFieldsAux (body.length + 6) ('d' :: 'x' :: '=' :: '[' :: (body ++ [']'])))
      from rfl]
  rw [matchFieldAt_idx_bracket body hnb]
  show (['i', 'd', 'x'], '[' :: (body ++ [']'])) :: scanFieldsAux (body.length + 6) [] = _
  rw [scanFieldsAux_nil]

theorem stripSquare_bracket (xs : List Char) (hne : xs ≠ [])
    (hx : ∀ c ∈ xs, isSquareBracket c = false) :
    stripSquare ('[' :: (xs ++ [']'])) = xs := by
  unfold stripSquare
  have hb1 : isSquareBracket '[' = true := by decide
  have hb2 : isSquareBracket ']' = true := by decide
  have h1 : List.dropWhile isSquareBracket ('[' :: (xs ++ [']']))
      = List.dropWhile isSquareBracket (xs ++ [']']) := by
    rw [List.dropWhile_cons, hb1]
    simp
  have h2 : List.dropWhile isSquareBracket (xs ++ [']']) = xs ++ [']'] := by
    cases xs with
    | nil => exact absurd rfl hne
    | cons c xs' =>
      rw [List.cons_append, List.dropWhile_cons, hx c (by simp)]
      simp
  rw [h1, h2]
  have h3 : (xs ++ [']']).reverse = ']' :: xs.reverse := by
    rw [List.reverse_append]
    rfl
  rw [h3]
  have h4 : List.dropWhile isSquareBracket (']' :: xs.reverse)
      = List.dropWhile isSquareBracket xs.reverse := by
    rw [List.dropWhile_cons, hb2]
    simp
  rw [h4, dropWhile_of_all_false _ _ (fun c hc => hx c (List.mem_reverse.mp hc)),
      List.reverse_reverse]

/-- **C8, amended.** For an input line consisting of a single index pair
`idx=[A/B]` whose halves contain no `[`, `]` or `/`, the parser accepts
the pair exactly when both halves parse as Python integers — sign
included, so negative indices are accepted — recording them as
`cat_idx`/`rec_idx`; if either half fails `int()`, the line is returned
as unrecognized. -/
theorem parse_idx_pair_integer_halves (a b : String)
    (hab : ∀ c ∈ a.data ++ b.data, ¬ (c = '[' ∨ c = ']' ∨ c = '/')) :
    parse_action_line ("idx=[" ++ a ++ "/" ++ b ++ "]")
      = (match pyInt? a.data, pyInt? b.data with
         | some i, some j =>
           some { cat_idx := i, rec_idx := j, action := none, fid := none, status := none }
         | _, _ => none) := by
  have hdata : ("idx=[" ++ a ++ "/" ++ b ++ "]").data
      = 'i' :: 'd' :: 'x' :: '=' :: '[' :: ((a.data ++ '/' :: b.data) ++ [']']) := by
    simp [String.data_append]
  have hnb : ¬ ']' ∈ a.data ++ '/' :: b.data := by
    intro hc
    rcases List.mem_append.mp hc with h | h
    · exact hab ']' (List.mem_append.mpr (Or.inl h)) (Or.inr (Or.inl rfl))
    · rcases List.mem_cons.mp h with h | h
      · exact absurd h.symm (by decide)
      · exact hab ']' (List.mem_append.mpr (Or.inr h)) (Or.inr (Or.inl rfl))
  have hbody_ne : a.data ++ '/' :: b.data ≠ [] := by
    intro hc
    rcases List.append_eq_nil.mp hc with ⟨_, h2⟩
    exact List.cons_ne_nil _ _ h2
  have hsq : ∀ c ∈ a.data ++ '/' :: b.data, isSquareBracket c = false := by
    intro c hc
    rcases List.mem_append.mp hc with h | h
    · have := hab c (List.mem_append.mpr (Or.inl h))
      push_neg at this
      simp [isSquareBracket, this.1, this.2.1]
    · rcases List.mem_cons.mp h with h | h
      · subst h
        decide
      · have := hab c (List.mem_append.mpr (Or.inr h))
        push_neg at this
        simp [isSquareBracket, this.1, this.2.1]
  have hsplit : splitChar '/' (a.data ++ '/' :: b.data) = [a.data, b.data] := by
    rw [splitChar_append '/' a.data _ (fun hc => hab '/' (List.mem_append.mpr (Or.inl hc))
          (Or.inr (Or.inr rfl))),
        splitChar_of_not_mem '/' b.data (fun hc => hab '/' (List.mem_append.mpr (Or.inr hc))
          (Or.inr (Or.inr rfl)))]
  have hfold : (scanFields ("idx=[" ++ a ++ "/" ++ b ++ "]").data).foldl applyField {}
      = applyIdxHalves {} a.data b.data := by
    rw [hdata, scanFields_idx_bracket _ hnb]
    simp only [List.foldl_cons, List.foldl_nil]
    rw [show applyField {} (['i', 'd', 'x'], '[' :: ((a.data ++ '/' :: b.data) ++ [']']))
        = applyTopIdx {} ('[' :: ((a.data ++ '/' :: b.data) ++ [']'])) from by
      unfold applyField
      rw [if_pos rfl]]
    unfold applyTopIdx
    rw [stripSquare_bracket _ hbody_ne hsq, hsplit]
  simp only [parse_action_line]
  rw [hfold]
  cases ha : pyInt? a.data with
  | none =>
    rw [show applyIdxHalves {} a.data b.data = {} from by
      unfold applyIdxHalves
      rw [ha]]
  | some i =>
    cases hb : pyInt? b.data with
    | none =>
      rw [show applyIdxHalves {} a.data b.data = { cat_idx := some i } from by
        unfold applyIdxHalves
        rw [ha, hb]]
    | some j =>
      rw [show applyIdxHalves {} a.data b.data
          = { cat_idx := some i, rec_idx := some j } from by
        unfold applyIdxHalves
        rw [ha, hb]]

/-- Witness for `parse_idx_pair_integer_halves` at the halves `-7`/`5`. -/
theorem parse_idx_pair_integer_halves_witness :
    parse_action_line ("idx=[" ++ "-7" ++ "/" ++ "5" ++ "]")
      = (match pyInt? "-7".data, pyInt? "5".data with
         | some i, some j =>
           some { cat_idx := i, rec_idx := j, action := none, fid := none, status := none }
         | _, _ => none) :=
  parse_idx_pair_integer_halves "-7" "5" (by decide)
